import Mathlib

/-!
redditclone: the in-memory repositories.

A shallow embedding of `pkg/posts/repo.go`, `pkg/posts/post.go`, `pkg/user/repo.go`,
`pkg/session/manager.go`, `pkg/session/session.go` and of the post construction in
`pkg/handlers/post.go`, followed by the properties proved about them.

Modelling conventions.

* A Go slice is a `List`; `copy` and re-slicing are modelled by `goCopy`,
  `goSliceFrom`, `goSliceTo`, and an access outside the slice bounds is a run-time
  fault (`Outcome.runtimeFault`), as in Go.
* A Go map keyed by strings is a function `String → Option α` (`GoMap`).
* A method that mutates the object it is given returns the mutated object next to
  its `error` result (`Outcome.returned`).
* `*Vote`, `*Comment`, `*Post` are modelled by the values they point to: every
  element of a slice is a distinct object (the handlers allocate a fresh object for
  every element they add).
* Go's `int` is modelled by `Int` (counters by `Nat`): the scores and counters of a
  post are bounded by the length of its vote slice when the vote values are `+1`
  and `-1`, so no 64-bit wrap-around occurs.
* Of an `http.Request` only the cookies are modelled, and of the random source
  only the identifier it yields; the cookie a session method writes to the
  response is left out.
* `float64` arithmetic is modelled exactly on the values that occur (non-negative,
  finite, far from the exponent limits): every operation is the exact rational
  result rounded to a 53-bit significand, ties to even.
-/

namespace RedditClone

/-! ## Go slices and maps -/

/-- Slice expression `s[low:]`; `none` when `low` is out of range. -/
def goSliceFrom {α : Type} (s : List α) (low : Int) : Option (List α) :=
  if 0 ≤ low ∧ low ≤ (s.length : Int) then some (s.drop low.toNat) else none

/-- Slice expression `s[:high]`; `none` when `high` is out of range. -/
def goSliceTo {α : Type} (s : List α) (high : Int) : Option (List α) :=
  if 0 ≤ high ∧ high ≤ (s.length : Int) then some (s.take high.toNat) else none

/-- Index expression `s[i]`; `none` when `i` is out of range. -/
def goIndex {α : Type} (s : List α) (i : Int) : Option α :=
  if 0 ≤ i ∧ i < (s.length : Int) then s.get? i.toNat else none

/-- The contents of `dst` after `copy(dst, src)`: the first `min(len(dst), len(src))`
elements are overwritten. -/
def goCopy {α : Type} (dst src : List α) : List α :=
  src.take dst.length ++ dst.drop src.length

/-- The two statements `copy(s[index:], s[index+1:]); s = s[:len(s)-1]`. -/
def removeAt {α : Type} (s : List α) (index : Int) : Option (List α) :=
  match goSliceFrom s index, goSliceFrom s (index + 1) with
  | some dst, some src =>
    let s1 := s.take index.toNat ++ goCopy dst src
    goSliceTo s1 ((s1.length : Int) - 1)
  | _, _ => none

/-- The search loop
`flag := false; index := -1; for i, x := range xs { if cond(x) { flag = true; index = i; break } }`
started at position `i`; the result is `(flag, index)`. -/
def rangeFind {α : Type} (cond : α → Bool) : List α → Nat → Bool × Int
  | [], _ => (false, -1)
  | x :: xs, i => if cond x then (true, (i : Int)) else rangeFind cond xs (i + 1)

/-- A Go map with string keys. -/
abbrev GoMap (α : Type) : Type := String → Option α

/-- The map made by `make(map[string]T)`. -/
def GoMap.empty {α : Type} : GoMap α := fun _ => none

/-- Assignment `m[k] = v`. -/
def GoMap.set {α : Type} (m : GoMap α) (k : String) (v : α) : GoMap α :=
  fun key => if key = k then some v else m key

/-- Statement `delete(m, k)`. -/
def GoMap.delete {α : Type} (m : GoMap α) (k : String) : GoMap α :=
  fun key => if key = k then none else m key

/-! ## float64 arithmetic on non-negative values -/

/-- A finite non-negative `float64` value, as the fraction `num / den`. -/
structure F64 where
  num : Nat
  den : Nat
  deriving DecidableEq, Repr

/-- The fraction `n / d` rounded to an integer, ties to even. -/
def roundNearestEven (n d : Nat) : Nat :=
  let q := n / d
  let r := n % d
  if 2 * r < d then q
  else if d < 2 * r then q + 1
  else if q % 2 = 0 then q else q + 1

/-- Number of halvings that bring `n` below `2`, at most `fuel` of them. -/
def log2Fuel : Nat → Nat → Nat
  | 0, _ => 0
  | fuel + 1, n => if n < 2 then 0 else log2Fuel fuel (n / 2) + 1

/-- For positive `n`: the `k` with `2^k ≤ n < 2^(k+1)`. -/
def floorLog2 (n : Nat) : Nat := log2Fuel n n

/-- For positive `n`, `d`: the integer `k` with `2^k ≤ n / d < 2^(k+1)`. -/
def floorLog2Ratio (n d : Nat) : Int :=
  let a := floorLog2 n
  let b := floorLog2 d
  if d * 2 ^ a ≤ n * 2 ^ b then (a : Int) - (b : Int) else (a : Int) - (b : Int) - 1

/-- The `float64` nearest to the fraction `n / d` (53-bit significand, ties to
even). The exponent range is not modelled: the values in this program lie between
`2^-64` and `2^71`. -/
def roundToFloat64 (n d : Nat) : F64 :=
  if n = 0 ∨ d = 0 then ⟨0, 1⟩
  else
    let e := floorLog2Ratio n d - 52
    if 0 ≤ e then ⟨roundNearestEven n (d * 2 ^ e.toNat) * 2 ^ e.toNat, 1⟩
    else ⟨roundNearestEven (n * 2 ^ (-e).toNat) d, 2 ^ (-e).toNat⟩

/-- Conversion `float64(n)` of a non-negative `int`. -/
def float64 (n : Nat) : F64 := roundToFloat64 n 1

/-- Operator `x / y` on `float64`, for a non-zero `y`. -/
def f64Div (x y : F64) : F64 := roundToFloat64 (x.num * y.den) (x.den * y.num)

/-- Operator `x * y` on `float64`. -/
def f64Mul (x y : F64) : F64 := roundToFloat64 (x.num * y.num) (x.den * y.den)

/-- The fraction `n / d` rounded to an integer, halves away from zero. -/
def roundHalfAway (n d : Nat) : Nat := (2 * n + d) / (2 * d)

/-- The expression `int(math.Round(x))`: `math.Round` rounds halves away from
zero and is exact. -/
def mathRoundToInt (x : F64) : Int := (roundHalfAway x.num x.den : Nat)

/-! ## pkg/posts/post.go -/

/-- Go struct `Author`. -/
structure Author where
  Username : String
  ID : String
  deriving DecidableEq, Repr

/-- Go struct `Vote`. -/
structure Vote where
  UserID : String
  Vote : Int
  deriving DecidableEq, Repr

/-- Go struct `Comment`. -/
structure Comment where
  Body : String
  UserAuthor : Author
  CreatedTime : String
  ID : String
  deriving DecidableEq, Repr

/-- Go struct `Post` (the field `Type` is named `Type_`). -/
structure Post where
  Score : Int
  Views : Int
  Type_ : String
  Title : String
  Category : String
  Text : String
  Author : Author
  Votes : List Vote
  Comments : List Comment
  UpvotePercentage : Int
  ID : String
  CreatedTime : String
  URL : String
  deriving DecidableEq, Repr

/-- Constant `UpvoteValue`. -/
def UpvoteValue : Int := 1

/-- Constant `DownvoteValue`. -/
def DownvoteValue : Int := -1

/-! ## pkg/posts/repo.go: operations on one post -/

/-- The error values of the post repository. -/
inductive RepoError where
  | ErrWrongCategory
  | ErrPostNotFound
  | ErrCommentNotFound
  | ErrAccessDenied
  | ErrUserNotFound
  deriving DecidableEq, Repr

/-- How a call ends: it returns an `error` value (`none` is `nil`) with the object
it worked on, or it stops with a run-time fault (index or slice bounds out of
range). -/
inductive Outcome (σ : Type) where
  | returned (err : Option RepoError) (state : σ)
  | runtimeFault
  deriving DecidableEq, Repr

/-- The loop of `issueScoreAndPercentage`; the accumulator is
`(downvoteScore, upvoteScore, p.Score)`. The sum is taken in `Int`: Go's `int` wraps
at 64 bits, which votes of values `+1` and `-1` cannot reach, and the properties
about `Score` below are stated for such votes. -/
def scoreLoop : List Vote → Nat × Nat × Int → Nat × Nat × Int
  | [], acc => acc
  | v :: vs, (down, up, score) =>
    if v.Vote = UpvoteValue then scoreLoop vs (down, up + 1, score + v.Vote)
    else scoreLoop vs (down + 1, up, score + v.Vote)

/-- The percentage branch of `issueScoreAndPercentage`. -/
def percentageOf (score : Int) (upvoteScore downvoteScore : Nat) : Int :=
  if score = 0 then 0
  else if downvoteScore ≠ 0 then
    mathRoundToInt (f64Mul (f64Div (float64 upvoteScore) (float64 downvoteScore)) (float64 100))
  else 100

/-- Method `issueScoreAndPercentage`. -/
def issueScoreAndPercentage (p : Post) : Post :=
  match scoreLoop p.Votes (0, 0, 0) with
  | (downvoteScore, upvoteScore, score) =>
    { p with Score := score, UpvotePercentage := percentageOf score upvoteScore downvoteScore }

/-- Method `DeleteComment`. The condition of the first `if` evaluates its left
operand `post.Comments[index].UserAuthor.ID != userID` before `index != -1`. -/
def DeleteComment (post : Post) (commentID userID : String) : Outcome Post :=
  match rangeFind (fun comm => comm.ID == commentID) post.Comments 0 with
  | (flag, index) =>
    match goIndex post.Comments index with
    | none => .runtimeFault
    | some c =>
      if c.UserAuthor.ID != userID && index != -1 then .returned (some .ErrAccessDenied) post
      else if flag then
        match removeAt post.Comments index with
        | none => .runtimeFault
        | some cs => .returned none { post with Comments := cs }
      else .returned (some .ErrCommentNotFound) post

/-- Assignment `votes[index].Vote = voteValue`; `none` when `index` is out of
range. -/
def goSetVote (votes : List Vote) (index : Int) (voteValue : Int) : Option (List Vote) :=
  match goIndex votes index with
  | none => none
  | some old => some (votes.set index.toNat { old with Vote := voteValue })

/-- Method `AddVote` (it has no result value: the `error` of the outcome is always
`nil`). -/
def AddVote (p : Post) (v : Vote) (voteValue : Int) : Outcome Post :=
  match rangeFind (fun vote => v.UserID == vote.UserID) p.Votes 0 with
  | (flag, index) =>
    if flag then
      match goSetVote p.Votes index voteValue with
      | none => .runtimeFault
      | some vs => .returned none (issueScoreAndPercentage { p with Votes := vs })
    else .returned none (issueScoreAndPercentage { p with Votes := p.Votes ++ [v] })

/-- Method `DeleteVote`. -/
def DeleteVote (p : Post) (userID : String) : Outcome Post :=
  match rangeFind (fun vote => vote.UserID == userID) p.Votes 0 with
  | (flag, index) =>
    if !flag then .returned (some .ErrAccessDenied) p
    else
      match removeAt p.Votes index with
      | none => .runtimeFault
      | some vs => .returned none (issueScoreAndPercentage { p with Votes := vs })

/-! ## pkg/posts/repo.go: the repository -/

/-- Go struct `PostsMemoryRepository` (without its mutex). -/
structure PostsMemoryRepository where
  AllDataWithCategories : GoMap (GoMap Post)
  UserPostsData : GoMap (List Post)
  AllData : GoMap Post

/-- Function `NewPostMemoryRepository`. -/
def NewPostMemoryRepository : PostsMemoryRepository :=
  { AllDataWithCategories :=
      ((((((GoMap.empty : GoMap (GoMap Post)).set "music" GoMap.empty).set "funny"
        GoMap.empty).set "videos" GoMap.empty).set "programming" GoMap.empty).set "news"
        GoMap.empty).set "fashion" GoMap.empty
    UserPostsData := GoMap.empty
    AllData := GoMap.empty }

/-- Method `AddPost`. -/
def AddPost (repo : PostsMemoryRepository) (p : Post) : Outcome PostsMemoryRepository :=
  match repo.AllDataWithCategories p.Category with
  | none => .returned (some .ErrWrongCategory) repo
  | some bucket =>
    .returned none
      { repo with
        AllData := repo.AllData.set p.ID p
        AllDataWithCategories := repo.AllDataWithCategories.set p.Category (bucket.set p.ID p) }

/-- Method `AddUserPost`: a missing key reads as the empty slice, whether or not
the first `if` has stored one. -/
def AddUserPost (repo : PostsMemoryRepository) (userName : String) (p : Post) :
    Outcome PostsMemoryRepository :=
  let repo1 : PostsMemoryRepository :=
    match repo.UserPostsData userName with
    | none => { repo with UserPostsData := repo.UserPostsData.set userName [] }
    | some _ => repo
  .returned none
    { repo1 with
      UserPostsData :=
        repo1.UserPostsData.set userName ((repo1.UserPostsData userName).getD [] ++ [p]) }

/-- Method `GetPost`. -/
def GetPost (repo : PostsMemoryRepository) (postID : String) : Except RepoError Post :=
  match repo.AllData postID with
  | none => .error .ErrPostNotFound
  | some post => .ok post

/-- Method `GetPostsWithCategory`. -/
def GetPostsWithCategory (repo : PostsMemoryRepository) (category : String) :
    Except RepoError (GoMap Post) :=
  match repo.AllDataWithCategories category with
  | none => .error .ErrWrongCategory
  | some posts => .ok posts

/-- Method `GetUserPosts`. -/
def GetUserPosts (repo : PostsMemoryRepository) (userName : String) :
    Except RepoError (List Post) :=
  match repo.UserPostsData userName with
  | none => .error .ErrUserNotFound
  | some posts => .ok posts

/-- Method `DeletePost`. `delete` on the bucket of an unknown category (a nil map)
does nothing; a missing `userName` key reads as the nil slice; the loop sets only
`index`, which stays `-1` when no post of the list has the ID of `p`. -/
def DeletePost (repo : PostsMemoryRepository) (p : Post) (userName userID : String) :
    Outcome PostsMemoryRepository :=
  if userID != p.Author.ID then .returned (some .ErrAccessDenied) repo
  else
    let allData := repo.AllData.delete p.ID
    let withCategories :=
      match repo.AllDataWithCategories p.Category with
      | none => repo.AllDataWithCategories
      | some bucket => repo.AllDataWithCategories.set p.Category (bucket.delete p.ID)
    let userPosts := (repo.UserPostsData userName).getD []
    match removeAt userPosts (rangeFind (fun post => post.ID == p.ID) userPosts 0).2 with
    | none => .runtimeFault
    | some rest =>
      .returned none
        { AllData := allData
          AllDataWithCategories := withCategories
          UserPostsData := repo.UserPostsData.set userName rest }

/-! ## pkg/handlers/post.go: the post built by `PostHandler.AddPost` -/

/-- Go struct `RequestForm` (the field `Type` is named `Type_`). -/
structure RequestForm where
  Category : String
  Text : String
  Title : String
  Type_ : String
  URL : String

/-- The zero value `post.Post{}`. -/
def zeroPost : Post :=
  { Score := 0, Views := 0, Type_ := "", Title := "", Category := "", Text := "",
    Author := ⟨"", ""⟩, Votes := [], Comments := [], UpvotePercentage := 0,
    ID := "", CreatedTime := "", URL := "" }

/-- The value of `currentPost` when `PostHandler.AddPost` hands it to the
repository: the literal chosen by `rf.Type`, then the author's upvote appended. -/
def handlerNewPost (rf : RequestForm) (sessUserName sessUserID postID formDate : String) : Post :=
  let currentPost : Post :=
    if rf.Type_ = "text" then
      { Score := 1, Views := 0, Type_ := rf.Type_, Title := rf.Title,
        Author := ⟨sessUserName, sessUserID⟩, Category := rf.Category, Text := rf.Text,
        Votes := [], Comments := [], CreatedTime := formDate, UpvotePercentage := 100,
        ID := postID, URL := "" }
    else if rf.Type_ = "link" then
      { Score := 1, Views := 0, Type_ := rf.Type_, Title := rf.Title,
        Author := ⟨sessUserName, sessUserID⟩, Category := rf.Category, URL := rf.URL,
        Votes := [], Comments := [], CreatedTime := formDate, UpvotePercentage := 100,
        ID := postID, Text := "" }
    else zeroPost
  { currentPost with Votes := currentPost.Votes ++ [⟨sessUserID, UpvoteValue⟩] }

/-- The two repository calls of `PostHandler.AddPost`: `AddPost`, and when it
returns no error, `AddUserPost` under the user name of the session. -/
def handlerStorePost (repo : PostsMemoryRepository) (sessUserName : String) (currentPost : Post) :
    Outcome PostsMemoryRepository :=
  match AddPost repo currentPost with
  | .returned none repo1 => AddUserPost repo1 sessUserName currentPost
  | other => other

/-- The object a call has worked on, or `fallback` after a run-time fault. -/
def Outcome.stateOr {σ : Type} (o : Outcome σ) (fallback : σ) : σ :=
  match o with
  | .returned _ state => state
  | .runtimeFault => fallback

/-- One call of `AddVote` or `DeleteVote` on a post. -/
inductive VoteCall where
  | addVote (v : Vote) (voteValue : Int)
  | deleteVote (userID : String)

/-- The outcome of one call. -/
def runVoteCall (p : Post) : VoteCall → Outcome Post
  | .addVote v voteValue => AddVote p v voteValue
  | .deleteVote userID => DeleteVote p userID

/-- The post after a sequence of calls, each made whatever the previous one
returned; `none` when a call stops with a run-time fault. -/
def runVoteCalls : Post → List VoteCall → Option Post
  | p, [] => some p
  | p, c :: cs =>
    match runVoteCall p c with
    | .returned _ p1 => runVoteCalls p1 cs
    | .runtimeFault => none

/-- Whether a call passes vote values `+1` or `-1` only, as every call of the
handlers does: for `AddVote` both the `Vote` field of the vote and `voteValue`. -/
def VoteCall.plusMinusOne : VoteCall → Bool
  | .addVote v voteValue =>
    decide (v.Vote = 1 ∨ v.Vote = -1) && decide (voteValue = 1 ∨ voteValue = -1)
  | .deleteVote _ => true

/-! ## Runs of the post repository -/

/-- The keys `NewPostMemoryRepository` gives to `AllDataWithCategories`. -/
def validCategories : List String :=
  ["music", "funny", "videos", "programming", "news", "fashion"]

/-- Every stored post passed through `g`. The tables hold pointers, so a method
that changes `Post` objects (`AddViews`, `AddCommentToPost`, `DeleteComment`,
`AddVote`, `DeleteVote`) changes the posts the tables show and none of their keys;
`g` stands for any such change. -/
def mapStoredPosts (g : Post → Post) (repo : PostsMemoryRepository) : PostsMemoryRepository :=
  { AllData := fun k => (repo.AllData k).map g
    AllDataWithCategories :=
      fun c => (repo.AllDataWithCategories c).map (fun bucket k => (bucket k).map g)
    UserPostsData := fun u => (repo.UserPostsData u).map (List.map g) }

/-- One call on the repository that can change what its tables show. -/
inductive RepoCall where
  | addPost (p : Post)
  | addUserPost (userName : String) (p : Post)
  | deletePost (p : Post) (userName userID : String)
  | changePosts (g : Post → Post)

/-- The outcome of one call. -/
def runRepoCall (repo : PostsMemoryRepository) : RepoCall → Outcome PostsMemoryRepository
  | .addPost p => AddPost repo p
  | .addUserPost userName p => AddUserPost repo userName p
  | .deletePost p userName userID => DeletePost repo p userName userID
  | .changePosts g => .returned none (mapStoredPosts g repo)

/-- The tables at the moment `DeletePost` stops with a run-time fault in its
`copy` statement: the two `delete` statements before it have been executed, the
author lists have not been assigned. -/
def DeletePostFaultState (repo : PostsMemoryRepository) (p : Post) : PostsMemoryRepository :=
  { AllData := repo.AllData.delete p.ID
    AllDataWithCategories :=
      match repo.AllDataWithCategories p.Category with
      | none => repo.AllDataWithCategories
      | some bucket => repo.AllDataWithCategories.set p.Category (bucket.delete p.ID)
    UserPostsData := repo.UserPostsData }

/-- The repository states reached from `NewPostMemoryRepository`, each with the
calls made so far: a call that returns (with or without an error) leads to the
state it returns, a `DeletePost` that stops with a run-time fault leaves the state
it had reached. After such a fault the mutex stays locked and later calls would
wait for it; the relation lets them proceed, which only adds states. -/
inductive ReachedBy : List RepoCall → PostsMemoryRepository → Prop where
  | start : ReachedBy [] NewPostMemoryRepository
  | call (calls : List RepoCall) (repo : PostsMemoryRepository) (c : RepoCall)
      (e : Option RepoError) (after : PostsMemoryRepository) :
      ReachedBy calls repo → runRepoCall repo c = .returned e after →
      ReachedBy (calls ++ [c]) after
  | fault (calls : List RepoCall) (repo : PostsMemoryRepository) (p : Post)
      (userName userID : String) :
      ReachedBy calls repo → DeletePost repo p userName userID = .runtimeFault →
      ReachedBy (calls ++ [.deletePost p userName userID]) (DeletePostFaultState repo p)

/-- The repository states reached from `NewPostMemoryRepository` by the steps
`create` (the handler stores a post of a valid category whose ID is not in the
global table, under the user name of its author) and `delete` (`DeletePost` of a
post of the global table with the user name and id of its author). -/
inductive CreateDeleteReachable : PostsMemoryRepository → Prop where
  | start : CreateDeleteReachable NewPostMemoryRepository
  | create (repo after : PostsMemoryRepository) (p : Post) :
      CreateDeleteReachable repo → p.Category ∈ validCategories → repo.AllData p.ID = none →
      handlerStorePost repo p.Author.Username p = .returned none after →
      CreateDeleteReachable after
  | delete (repo after : PostsMemoryRepository) (p : Post) :
      CreateDeleteReachable repo → repo.AllData p.ID = some p →
      DeletePost repo p p.Author.Username p.Author.ID = .returned none after →
      CreateDeleteReachable after

/-- The three tables agree: a post of the global table is stored under its own
ID, in the bucket of its category and once in the list of its author's user name;
what a bucket or an author list holds is a post of the global table, in the bucket
of its category resp. the list of its author. -/
def IndexesAgree (repo : PostsMemoryRepository) : Prop :=
  (∀ id p, repo.AllData id = some p →
      p.ID = id
        ∧ (∃ bucket, repo.AllDataWithCategories p.Category = some bucket ∧ bucket id = some p)
        ∧ (∃ posts, repo.UserPostsData p.Author.Username = some posts ∧ posts.count p = 1))
    ∧ (∀ c bucket k q, repo.AllDataWithCategories c = some bucket → bucket k = some q →
        repo.AllData k = some q ∧ c = q.Category)
    ∧ (∀ u posts q, repo.UserPostsData u = some posts → q ∈ posts →
        repo.AllData q.ID = some q ∧ u = q.Author.Username)

/-! ## Runs of the post repository, with its mutex -/

/-- Whether the call gets to a `repo.mu.Lock()` statement: `AddPost` returns
`ErrWrongCategory` before it, `DeletePost` returns `ErrAccessDenied` before it,
`AddUserPost` always locks, and a method that changes a `Post` object does so
under the lock. -/
def reachesLock (repo : PostsMemoryRepository) : RepoCall → Bool
  | .addPost p => (repo.AllDataWithCategories p.Category).isSome
  | .addUserPost _ _ => true
  | .deletePost p _ userID => userID == p.Author.ID
  | .changePosts _ => true

/-- How a call ends when the mutex is taken into account: it returns, having
unlocked every lock it took; or it stops with a run-time fault between `Lock` and
`Unlock` (no `Unlock` is deferred), leaving the tables as they are at that moment
and the mutex locked; or it waits at `repo.mu.Lock()` for a mutex that is never
unlocked, and does not return. -/
inductive MutexOutcome where
  | returned (err : Option RepoError) (state : PostsMemoryRepository)
  | faulted (state : PostsMemoryRepository)
  | blocked

/-- The tables at the moment a call stops with a run-time fault; only `DeletePost`
does. -/
def faultState (repo : PostsMemoryRepository) : RepoCall → PostsMemoryRepository
  | .deletePost p _ _ => DeletePostFaultState repo p
  | _ => repo

/-- The outcome of one call on the tables `repo` when the mutex is locked
(`muLocked = true`, left so by an earlier fault) or free. -/
def runRepoCallWithMutex (repo : PostsMemoryRepository) (muLocked : Bool) (c : RepoCall) :
    MutexOutcome :=
  if muLocked && reachesLock repo c then .blocked
  else
    match runRepoCall repo c with
    | .returned e after => .returned e after
    | .runtimeFault => .faulted (faultState repo c)

/-- The repository states reached from `NewPostMemoryRepository`, each with the
calls that have ended and with the state of the mutex: a call that returns leads
to the state it returns and leaves the mutex as it was; a call that stops with a
run-time fault leaves the tables it had reached and the mutex locked; a call that
waits for the mutex never ends, so no state follows it. -/
inductive ReachedWithMutex : List RepoCall → PostsMemoryRepository → Bool → Prop where
  | start : ReachedWithMutex [] NewPostMemoryRepository false
  | call (calls : List RepoCall) (repo : PostsMemoryRepository) (muLocked : Bool)
      (c : RepoCall) (e : Option RepoError) (after : PostsMemoryRepository) :
      ReachedWithMutex calls repo muLocked →
      runRepoCallWithMutex repo muLocked c = .returned e after →
      ReachedWithMutex (calls ++ [c]) after muLocked
  | fault (calls : List RepoCall) (repo : PostsMemoryRepository) (muLocked : Bool)
      (c : RepoCall) (after : PostsMemoryRepository) :
      ReachedWithMutex calls repo muLocked →
      runRepoCallWithMutex repo muLocked c = .faulted after →
      ReachedWithMutex (calls ++ [c]) after true

/-! ## pkg/user/user.go, pkg/user/repo.go -/

/-- Go struct `User`. -/
structure User where
  Name : String
  Password : String
  ID : String
  deriving DecidableEq, Repr

/-- The error values of the user repository. -/
inductive UserError where
  | ErrUserAlready
  | ErrUserNotExist
  | ErrInvalidPassword
  deriving DecidableEq, Repr

/-- Go struct `UserMemoryRepository` (without its mutex). -/
structure UserMemoryRepository where
  data : GoMap User

/-- Function `NewUserMemRep`. -/
def NewUserMemRep : UserMemoryRepository := { data := GoMap.empty }

/-- Method `CheckUser`; `none` is `nil`. -/
def CheckUser (repo : UserMemoryRepository) (name password : String) : Option UserError :=
  match repo.data name with
  | none => some .ErrUserNotExist
  | some _ =>
    match repo.data name with
    | some val => if val.Password != password then some .ErrInvalidPassword else none
    | none => none

/-- Method `AddUser`: the `error` result and the repository after the call. -/
def AddUser (repo : UserMemoryRepository) (user : User) :
    Option UserError × UserMemoryRepository :=
  if CheckUser repo user.Name user.Password != none then
    (none, { data := repo.data.set user.Name user })
  else (some .ErrUserAlready, repo)

/-- Method `GetUser`. -/
def GetUser (repo : UserMemoryRepository) (name : String) : Except UserError User :=
  match repo.data name with
  | some val => .ok val
  | none => .error .ErrUserNotExist

/-! ## pkg/session/session.go, pkg/session/manager.go -/

/-- Go struct `Session`. -/
structure Session where
  ID : String
  UserName : String
  UserID : String
  deriving DecidableEq, Repr

/-- The errors the session manager returns: its own `ErrSessionNotFound`, and
`http.ErrNoCookie`, which it passes on from `r.Cookie`. -/
inductive SessionError where
  | ErrSessionNotFound
  | ErrNoCookie
  deriving DecidableEq, Repr

/-- The fields of `http.Cookie` the session manager reads. -/
structure Cookie where
  Name : String
  Value : String
  deriving DecidableEq, Repr

/-- An `http.Request`, as far as the session manager reads it: the cookies it
carries. -/
structure Request where
  Cookies : List Cookie
  deriving DecidableEq, Repr

/-- Library method `(*http.Request).Cookie`: the first cookie of the request with
the given name, or `http.ErrNoCookie` when there is none or the name is empty. -/
def Request.Cookie (r : Request) (name : String) : Except SessionError Cookie :=
  if name = "" then .error .ErrNoCookie
  else
    match r.Cookies.find? (fun c => c.Name == name) with
    | some c => .ok c
    | none => .error .ErrNoCookie

/-- Go struct `SessionManager` (without its mutex). -/
structure SessionManager where
  data : GoMap Session

/-- Function `NewSessionsManager`. -/
def NewSessionsManager : SessionManager := { data := GoMap.empty }

/-- Function `NewSession`; `generated` is what `GenerateHexID` returns (`none` for an
error of the random source), and the result `none` is the nil pointer. -/
def NewSession (generated : Option String) (name userID : String) : Option Session :=
  match generated with
  | none => none
  | some ID => some { ID := ID, UserName := name, UserID := userID }

/-- Method `CreateSession`: the manager after the call and the session returned;
`none` is the run-time fault of reading `sess.ID` through a nil pointer. The cookie
written to the response is not modelled. -/
def CreateSession (manager : SessionManager) (generated : Option String) (name userID : String) :
    Option (SessionManager × Session) :=
  match NewSession generated name userID with
  | none => none
  | some sess => some ({ data := manager.data.set sess.ID sess }, sess)

/-- Method `CheckSession`. -/
def CheckSession (manager : SessionManager) (r : Request) : Except SessionError Session :=
  match r.Cookie "session_id" with
  | .error err => .error err
  | .ok sessID =>
    match manager.data sessID.Value with
    | some sess => .ok sess
    | none => .error .ErrSessionNotFound

/-- Sum of the vote values. -/
def voteSum (votes : List Vote) : Int := (votes.map Vote.Vote).sum

/-- Number of votes of value `+1`. -/
def upvoteCount (votes : List Vote) : Nat := (votes.map Vote.Vote).count 1

/-- Number of votes of value `-1`. -/
def downvoteCount (votes : List Vote) : Nat := (votes.map Vote.Vote).count (-1)

/-- The percentage of the scoring rule read over the rationals: `0` for a zero sum,
otherwise the exact quotient `upvoteCount / downvoteCount * 100` rounded to an
integer, halves away from zero, when a downvote exists, otherwise `100`. -/
def exactRatioPercentage (votes : List Vote) : Int :=
  if voteSum votes = 0 then 0
  else if 0 < downvoteCount votes then
    (roundHalfAway (100 * upvoteCount votes) (downvoteCount votes) : Nat)
  else 100

/-- The percentage as the code computes it from the two counts, in `float64`. -/
def float64Percentage (votes : List Vote) : Int :=
  if voteSum votes = 0 then 0
  else if 0 < downvoteCount votes then
    mathRoundToInt
      (f64Mul (f64Div (float64 (upvoteCount votes)) (float64 (downvoteCount votes))) (float64 100))
  else 100

/-- At most one vote per user-id. -/
def OneVotePerUser (votes : List Vote) : Prop := (votes.map Vote.UserID).Nodup

/-- The percentage the scoring code computes from a vote sequence. -/
def scoringPercentage (votes : List Vote) : Int :=
  match scoreLoop votes (0, 0, 0) with
  | (downvoteScore, upvoteScore, score) => percentageOf score upvoteScore downvoteScore

/-- The stored score and percentage are those the scoring code computes from the
votes the post holds now. -/
def ScoreInSync (p : Post) : Prop :=
  p.Score = voteSum p.Votes ∧ p.UpvotePercentage = scoringPercentage p.Votes

/-- A post without votes and comments. -/
def blankPost : Post :=
  { Score := 0, Views := 0, Type_ := "text", Title := "t", Category := "music", Text := "",
    Author := ⟨"alice", "a1"⟩, Votes := [], Comments := [], UpvotePercentage := 0,
    ID := "p1", CreatedTime := "", URL := "" }

/-- Sixty-three votes of sixty-three users: 23 upvotes and 40 downvotes. -/
def ratioVotes : List Vote :=
  [
    ⟨"u01", 1⟩, ⟨"u02", 1⟩, ⟨"u03", 1⟩, ⟨"u04", 1⟩, ⟨"u05", 1⟩, ⟨"u06", 1⟩,
    ⟨"u07", 1⟩, ⟨"u08", 1⟩, ⟨"u09", 1⟩, ⟨"u10", 1⟩, ⟨"u11", 1⟩, ⟨"u12", 1⟩,
    ⟨"u13", 1⟩, ⟨"u14", 1⟩, ⟨"u15", 1⟩, ⟨"u16", 1⟩, ⟨"u17", 1⟩, ⟨"u18", 1⟩,
    ⟨"u19", 1⟩, ⟨"u20", 1⟩, ⟨"u21", 1⟩, ⟨"u22", 1⟩, ⟨"u23", 1⟩, ⟨"u24", -1⟩,
    ⟨"u25", -1⟩, ⟨"u26", -1⟩, ⟨"u27", -1⟩, ⟨"u28", -1⟩, ⟨"u29", -1⟩, ⟨"u30", -1⟩,
    ⟨"u31", -1⟩, ⟨"u32", -1⟩, ⟨"u33", -1⟩, ⟨"u34", -1⟩, ⟨"u35", -1⟩, ⟨"u36", -1⟩,
    ⟨"u37", -1⟩, ⟨"u38", -1⟩, ⟨"u39", -1⟩, ⟨"u40", -1⟩, ⟨"u41", -1⟩, ⟨"u42", -1⟩,
    ⟨"u43", -1⟩, ⟨"u44", -1⟩, ⟨"u45", -1⟩, ⟨"u46", -1⟩, ⟨"u47", -1⟩, ⟨"u48", -1⟩,
    ⟨"u49", -1⟩, ⟨"u50", -1⟩, ⟨"u51", -1⟩, ⟨"u52", -1⟩, ⟨"u53", -1⟩, ⟨"u54", -1⟩,
    ⟨"u55", -1⟩, ⟨"u56", -1⟩, ⟨"u57", -1⟩, ⟨"u58", -1⟩, ⟨"u59", -1⟩, ⟨"u60", -1⟩,
    ⟨"u61", -1⟩, ⟨"u62", -1⟩, ⟨"u63", -1⟩
  ]

/-- The votes of `ratioVotes` after the first, each cast by an `AddVote` call as
the handlers make it. -/
def ratioCalls : List VoteCall :=
  (ratioVotes.drop 1).map (fun v => VoteCall.addVote v v.Vote)

/-- The post of the worked example: two upvotes and one downvote. -/
def threeVotePost : Post :=
  { blankPost with Votes := [⟨"a1", 1⟩, ⟨"b2", 1⟩, ⟨"c3", -1⟩] }

/-- A post holding the sixty-three votes `ratioVotes`. -/
def ratioPost : Post := { blankPost with Votes := ratioVotes }

/-- A registered user. -/
def bobFirst : User := { Name := "bob", Password := "secret", ID := "id1" }

/-- A second registration under the same name with another password. -/
def bobSecond : User := { Name := "bob", Password := "other", ID := "id2" }

/-- A comment of user `b2`. -/
def sampleComment : Comment :=
  { Body := "hello", UserAuthor := ⟨"bob", "b2"⟩, CreatedTime := "", ID := "c1" }

/-- A post with the single comment `sampleComment`. -/
def commentedPost : Post := { blankPost with Comments := [sampleComment] }

/-- Another post of the same author, with its own ID. -/
def otherPost : Post := { blankPost with ID := "p2", Title := "second" }

/-- The repository after the handler has stored `otherPost` and then `blankPost`,
both for `alice`. -/
def twoPostRepo : PostsMemoryRepository :=
  (handlerStorePost
    ((handlerStorePost NewPostMemoryRepository "alice" otherPost).stateOr
      NewPostMemoryRepository)
    "alice" blankPost).stateOr NewPostMemoryRepository

/-- A request for a text post. -/
def sampleForm : RequestForm :=
  { Category := "music", Text := "body", Title := "t", Type_ := "text", URL := "" }

/-- A downvote by `b2`, an upvote by `c3`, a change of mind by `b2`, an unvote by a
user without a vote, an unvote by `c3`. -/
def sampleCalls : List VoteCall :=
  [.addVote ⟨"b2", -1⟩ (-1), .addVote ⟨"c3", 1⟩ 1, .addVote ⟨"b2", 1⟩ 1, .deleteVote "zz",
    .deleteVote "c3"]

/-- A request without cookies. -/
def bareRequest : Request := { Cookies := [] }

/-- A request that carries the session token `t`. -/
def requestWith (t : String) : Request := { Cookies := [⟨"session_id", t⟩] }

/-- A session manager holding one session, created with the identifier
`00112233aabbccdd`. -/
def oneSessionManager : SessionManager :=
  match CreateSession NewSessionsManager (some "00112233aabbccdd") "alice" "a1" with
  | some (manager, _) => manager
  | none => NewSessionsManager

/-! ## Facts about the slice operations -/

theorem rangeFind_absent {α : Type} (cond : α → Bool) (xs : List α) (i : Nat)
    (h : ∀ x ∈ xs, cond x = false) : rangeFind cond xs i = (false, -1) := by
  induction xs generalizing i with
  | nil => rfl
  | cons x xs ih =>
    have hx : cond x = false := h x (List.mem_cons_self x xs)
    simp only [rangeFind, hx]
    exact ih (i + 1) (fun y hy => h y (List.mem_cons_of_mem x hy))

theorem rangeFind_present {α : Type} (cond : α → Bool) (l₁ : List α) (a : α) (l₂ : List α)
    (i : Nat) (h₁ : ∀ x ∈ l₁, cond x = false) (ha : cond a = true) :
    rangeFind cond (l₁ ++ a :: l₂) i = (true, ((i + l₁.length : Nat) : Int)) := by
  induction l₁ generalizing i with
  | nil => simp [rangeFind, ha]
  | cons x xs ih =>
    have hx : cond x = false := h₁ x (List.mem_cons_self x xs)
    have hstep : rangeFind cond (x :: (xs ++ a :: l₂)) i
        = rangeFind cond (xs ++ a :: l₂) (i + 1) := by
      simp [rangeFind, hx]
    rw [List.cons_append, hstep, ih (i + 1) (fun y hy => h₁ y (List.mem_cons_of_mem x hy))]
    simp only [List.length_cons]
    congr 2
    omega

/-- A list in which some element satisfies `cond` splits at the first such
element. -/
theorem split_at_first {α : Type} (cond : α → Bool) (xs : List α)
    (h : ∃ x ∈ xs, cond x = true) :
    ∃ l₁ a l₂, xs = l₁ ++ a :: l₂ ∧ (∀ x ∈ l₁, cond x = false) ∧ cond a = true := by
  induction xs with
  | nil => simp at h
  | cons x xs ih =>
    by_cases hx : cond x = true
    · exact ⟨[], x, xs, rfl, by simp, hx⟩
    · have h2 : ∃ y ∈ xs, cond y = true := by
        obtain ⟨y, hy, hc⟩ := h
        rcases List.mem_cons.mp hy with rfl | hy
        · exact absurd hc hx
        · exact ⟨y, hy, hc⟩
      obtain ⟨l₁, a, l₂, he, h₁, ha⟩ := ih h2
      refine ⟨x :: l₁, a, l₂, by simp [he], ?_, ha⟩
      intro y hy
      rcases List.mem_cons.mp hy with rfl | hy
      · simpa using hx
      · exact h₁ y hy

theorem removeAt_split {α : Type} (l₁ : List α) (a : α) (l₂ : List α) :
    removeAt (l₁ ++ a :: l₂) ((l₁.length : Nat) : Int) = some (l₁ ++ l₂) := by
  have h1 : goSliceFrom (l₁ ++ a :: l₂) ((l₁.length : Nat) : Int) = some (a :: l₂) := by
    simp [goSliceFrom]
    omega
  have h2 : goSliceFrom (l₁ ++ a :: l₂) (((l₁.length : Nat) : Int) + 1) = some l₂ := by
    have : (((l₁.length : Nat) : Int) + 1).toNat = l₁.length + 1 := by omega
    simp [goSliceFrom, this]
    omega
  simp only [removeAt, h1, h2, goCopy, Int.toNat_ofNat]
  have h3 : List.take l₁.length (l₁ ++ a :: l₂) = l₁ := by simp
  rw [h3]
  have hlen : (((l₁ ++ (List.take (a :: l₂).length l₂ ++ List.drop l₂.length (a :: l₂))).length
      : Nat) : Int) - 1 = ((l₁.length + l₂.length : Nat) : Int) := by
    simp
    omega
  rw [hlen]
  have htake : List.take (a :: l₂).length l₂ = l₂ := by simp
  rw [htake, ← List.append_assoc]
  have hle : (0 : Int) ≤ ((l₁.length + l₂.length : Nat) : Int) ∧
      ((l₁.length + l₂.length : Nat) : Int)
        ≤ (((l₁ ++ l₂ ++ List.drop l₂.length (a :: l₂)).length : Nat) : Int) := by
    constructor
    · exact Int.ofNat_nonneg _
    · simp
  rw [goSliceTo, if_pos hle, Int.toNat_ofNat, ← List.length_append]
  simp only [List.take_left]

theorem goIndex_split {α : Type} (l₁ : List α) (a : α) (l₂ : List α) :
    goIndex (l₁ ++ a :: l₂) ((l₁.length : Nat) : Int) = some a := by
  have h : (l₁ ++ a :: l₂).get? l₁.length = some a := by
    rw [List.get?_eq_getElem?, List.getElem?_append_right (Nat.le_refl _)]
    simp
  simp only [goIndex, Int.toNat_ofNat, h]
  simp

theorem goIndex_neg_one {α : Type} (s : List α) : goIndex s (-1) = none := by
  simp [goIndex]

/-! ## The scoring rule -/

theorem scoreLoop_score (vs : List Vote) (d u : Nat) (s : Int) :
    (scoreLoop vs (d, u, s)).2.2 = s + voteSum vs := by
  induction vs generalizing d u s with
  | nil => simp [scoreLoop, voteSum]
  | cons v vs ih =>
    simp only [scoreLoop]
    split
    · rw [ih]; simp only [voteSum, List.map_cons, List.sum_cons]; omega
    · rw [ih]; simp only [voteSum, List.map_cons, List.sum_cons]; omega

theorem scoreLoop_counts (vs : List Vote) (h : ∀ v ∈ vs, v.Vote = 1 ∨ v.Vote = -1)
    (d u : Nat) (s : Int) :
    scoreLoop vs (d, u, s) = (d + downvoteCount vs, u + upvoteCount vs, s + voteSum vs) := by
  induction vs generalizing d u s with
  | nil => simp [scoreLoop, voteSum, upvoteCount, downvoteCount]
  | cons v vs ih =>
    have hv := h v (List.mem_cons_self v vs)
    have ih2 := fun d u s => ih (fun w hw => h w (List.mem_cons_of_mem v hw)) d u s
    simp only [scoreLoop, UpvoteValue]
    rcases hv with hv | hv
    · rw [if_pos hv, ih2]
      simp [voteSum, upvoteCount, downvoteCount, hv, List.count_cons]
      omega
    · have hne : ¬ v.Vote = 1 := by omega
      rw [if_neg hne, ih2]
      simp [voteSum, upvoteCount, downvoteCount, hv, List.count_cons]
      omega

theorem issueScoreAndPercentage_eq (p : Post) (h : ∀ v ∈ p.Votes, v.Vote = 1 ∨ v.Vote = -1) :
    issueScoreAndPercentage p
      = { p with Score := voteSum p.Votes, UpvotePercentage := float64Percentage p.Votes } := by
  simp only [issueScoreAndPercentage, scoreLoop_counts p.Votes h, percentageOf, float64Percentage]
  simp [Nat.pos_iff_ne_zero]

set_option maxRecDepth 100000 in
theorem float64_two_over_one_times_hundred :
    mathRoundToInt (f64Mul (f64Div (float64 2) (float64 1)) (float64 100)) = 200 := by
  decide

/-- C1 (amended). For every vote sequence whose values are all `+1` or `-1`,
`issueScoreAndPercentage` changes only `Score` and `UpvotePercentage`: `Score`
becomes the sum of the vote values, and `UpvotePercentage` becomes `0` when that
sum is `0`, otherwise, when a downvote exists, `math.Round` (halves away from zero)
of the `float64` product `float64(upvoteCount) / float64(downvoteCount) * 100`,
otherwise `100`. Votes `[+1, +1, -1]` give `Score = 1` and `UpvotePercentage = 200`;
an empty vote sequence gives `0` and `0`. -/
theorem issueScoreAndPercentage_float64_ratio (p : Post)
    (h : ∀ v ∈ p.Votes, v.Vote = 1 ∨ v.Vote = -1) :
    issueScoreAndPercentage p
        = { p with
            Score := voteSum p.Votes
            UpvotePercentage :=
              if voteSum p.Votes = 0 then 0
              else if 0 < downvoteCount p.Votes then
                mathRoundToInt
                  (f64Mul (f64Div (float64 (upvoteCount p.Votes)) (float64 (downvoteCount p.Votes)))
                    (float64 100))
              else 100 }
      ∧ (p.Votes.map Vote.Vote = [1, 1, -1] →
          (issueScoreAndPercentage p).Score = 1
            ∧ (issueScoreAndPercentage p).UpvotePercentage = 200)
      ∧ (p.Votes = [] →
          (issueScoreAndPercentage p).Score = 0
            ∧ (issueScoreAndPercentage p).UpvotePercentage = 0) := by
  have heq := issueScoreAndPercentage_eq p h
  refine ⟨?_, ?_, ?_⟩
  · rw [heq]; rfl
  · intro h3
    rw [heq]
    simp only [float64Percentage, voteSum, upvoteCount, downvoteCount, h3]
    simp only [List.sum_cons, List.sum_nil]
    have hu : List.count (1 : Int) [1, 1, -1] = 2 := by decide
    have hd : List.count (-1 : Int) [1, 1, -1] = 1 := by decide
    rw [hu, hd, float64_two_over_one_times_hundred]
    decide
  · intro h0
    rw [heq]
    simp [float64Percentage, voteSum, h0]

/-- C1, witness: the worked example `[+1, +1, -1]`. -/
theorem issueScoreAndPercentage_float64_ratio_witness :
    (issueScoreAndPercentage threeVotePost).Score = 1
      ∧ (issueScoreAndPercentage threeVotePost).UpvotePercentage = 200 :=
  (issueScoreAndPercentage_float64_ratio threeVotePost (by decide)).2.1 (by decide)

set_option maxRecDepth 100000 in
/-- C1, counterexample. With 23 upvotes and 40 downvotes (all values `+1` or `-1`)
the sum is `-17`, a downvote exists, and the exact quotient `23 / 40 * 100 = 57.5`
rounds, halves away from zero, to `58`; the code stores `57`, because the `float64`
product is `57.49999999999999`. -/
theorem issueScoreAndPercentage_not_exact_ratio :
    (∀ v ∈ ratioPost.Votes, v.Vote = 1 ∨ v.Vote = -1)
      ∧ voteSum ratioPost.Votes = -17
      ∧ upvoteCount ratioPost.Votes = 23
      ∧ downvoteCount ratioPost.Votes = 40
      ∧ exactRatioPercentage ratioPost.Votes = 58
      ∧ (issueScoreAndPercentage ratioPost).Score = -17
      ∧ (issueScoreAndPercentage ratioPost).UpvotePercentage = 57 := by
  decide

/-! ## The user repository -/

/-- C2, the code at the failing input: after `bob` has registered with password
`secret`, a second `AddUser` for `bob` with password `other` returns `nil`, not
`ErrUserAlready`, and replaces the stored record: the old password is no longer
accepted. -/
theorem AddUser_same_name_other_password_overwrites :
    (AddUser NewUserMemRep bobFirst).1 = none
      ∧ GetUser (AddUser NewUserMemRep bobFirst).2 "bob" = .ok bobFirst
      ∧ (AddUser (AddUser NewUserMemRep bobFirst).2 bobSecond).1 = none
      ∧ GetUser (AddUser (AddUser NewUserMemRep bobFirst).2 bobSecond).2 "bob" = .ok bobSecond
      ∧ CheckUser (AddUser (AddUser NewUserMemRep bobFirst).2 bobSecond).2 "bob" "secret"
          = some .ErrInvalidPassword := by
  refine ⟨?_, ?_, ?_, ?_, ?_⟩
  · decide
  · rfl
  · decide
  · rfl
  · decide

/-! ## Comments -/

theorem DeleteComment_absent (post : Post) (commentID userID : String)
    (h : ∀ c ∈ post.Comments, c.ID ≠ commentID) :
    DeleteComment post commentID userID = .runtimeFault := by
  have hfind : rangeFind (fun comm => comm.ID == commentID) post.Comments 0 = (false, -1) :=
    rangeFind_absent _ _ _ (fun c hc => by simpa using h c hc)
  simp only [DeleteComment, hfind, goIndex_neg_one]

/-- C3, the code at the failing input: for a post without comments, and for a post
whose only comment has another ID, `DeleteComment` does not return
`ErrCommentNotFound`: it evaluates `post.Comments[-1]` and stops with a run-time
fault. -/
theorem DeleteComment_unknown_id_faults :
    DeleteComment blankPost "c1" "a1" = .runtimeFault
      ∧ DeleteComment commentedPost "c9" "b2" = .runtimeFault
      ∧ DeleteComment commentedPost "c9" "a1" = .runtimeFault := by
  refine ⟨?_, ?_, ?_⟩ <;> decide

/-! ## Deleting a post -/

theorem DeletePost_at_split (repo : PostsMemoryRepository) (p : Post) (userName : String)
    (l₁ l₂ : List Post) (huser : repo.UserPostsData userName = some (l₁ ++ p :: l₂))
    (h₁ : ∀ q ∈ l₁, q.ID ≠ p.ID) :
    DeletePost repo p userName p.Author.ID
      = .returned none
          { AllData := repo.AllData.delete p.ID
            AllDataWithCategories :=
              match repo.AllDataWithCategories p.Category with
              | none => repo.AllDataWithCategories
              | some bucket => repo.AllDataWithCategories.set p.Category (bucket.delete p.ID)
            UserPostsData := repo.UserPostsData.set userName (l₁ ++ l₂) } := by
  have hfind : rangeFind (fun post => post.ID == p.ID) (l₁ ++ p :: l₂) 0
      = (true, ((0 + l₁.length : Nat) : Int)) :=
    rangeFind_present _ l₁ p l₂ 0 (fun q hq => by simpa using h₁ q hq) (by simp)
  simp only [DeletePost, huser, Option.getD_some, hfind, Nat.zero_add, removeAt_split]
  simp

theorem issueScoreAndPercentage_votes (p : Post) :
    (issueScoreAndPercentage p).Votes = p.Votes := rfl

theorem issueScoreAndPercentage_score (p : Post) :
    (issueScoreAndPercentage p).Score = voteSum p.Votes := by
  have h := scoreLoop_score p.Votes 0 0 0
  simp only [issueScoreAndPercentage]
  simpa using h

theorem issueScoreAndPercentage_percentage (p : Post) :
    (issueScoreAndPercentage p).UpvotePercentage = scoringPercentage p.Votes := rfl

theorem goSetVote_split (l₁ : List Vote) (a : Vote) (l₂ : List Vote) (x : Int) :
    goSetVote (l₁ ++ a :: l₂) ((l₁.length : Nat) : Int) x
      = some (l₁ ++ { a with Vote := x } :: l₂) := by
  simp only [goSetVote, goIndex_split, Int.toNat_ofNat]
  simp

/-- The two ways `AddVote` proceeds: the user has no vote and `v` is appended, or
the first vote of the user gets the value `voteValue`. -/
theorem AddVote_cases (p : Post) (v : Vote) (voteValue : Int) :
    ((∀ w ∈ p.Votes, w.UserID ≠ v.UserID)
        ∧ AddVote p v voteValue
            = .returned none (issueScoreAndPercentage { p with Votes := p.Votes ++ [v] }))
      ∨ ∃ l₁ a l₂, p.Votes = l₁ ++ a :: l₂ ∧ (∀ w ∈ l₁, w.UserID ≠ v.UserID)
          ∧ a.UserID = v.UserID
          ∧ AddVote p v voteValue
              = .returned none
                  (issueScoreAndPercentage
                    { p with Votes := l₁ ++ { a with Vote := voteValue } :: l₂ }) := by
  by_cases h : ∃ w ∈ p.Votes, (fun vote : Vote => v.UserID == vote.UserID) w = true
  · right
    obtain ⟨l₁, a, l₂, hsplit, h₁, ha⟩ := split_at_first _ p.Votes h
    refine ⟨l₁, a, l₂, hsplit, ?_, ?_, ?_⟩
    · intro w hw
      have := h₁ w hw
      intro heq
      simp [heq] at this
    · have hva : v.UserID = a.UserID := by simpa using ha
      exact hva.symm
    · have hfind := rangeFind_present (fun vote : Vote => v.UserID == vote.UserID) l₁ a l₂ 0 h₁ ha
      simp only [AddVote, hsplit, hfind, Nat.zero_add, goSetVote_split]
      simp
  · left
    have habs : ∀ w ∈ p.Votes, (fun vote : Vote => v.UserID == vote.UserID) w = false := by
      intro w hw
      by_contra hc
      exact h ⟨w, hw, by simpa using hc⟩
    refine ⟨?_, ?_⟩
    · intro w hw heq
      have := habs w hw
      simp [heq] at this
    · simp only [AddVote, rangeFind_absent _ _ _ habs]
      simp

/-- The two ways `DeleteVote` proceeds: the user has no vote and the call fails,
or the first vote of the user is removed. -/
theorem DeleteVote_cases (p : Post) (userID : String) :
    ((∀ w ∈ p.Votes, w.UserID ≠ userID)
        ∧ DeleteVote p userID = .returned (some .ErrAccessDenied) p)
      ∨ ∃ l₁ a l₂, p.Votes = l₁ ++ a :: l₂ ∧ (∀ w ∈ l₁, w.UserID ≠ userID)
          ∧ a.UserID = userID
          ∧ DeleteVote p userID
              = .returned none (issueScoreAndPercentage { p with Votes := l₁ ++ l₂ }) := by
  by_cases h : ∃ w ∈ p.Votes, (fun vote : Vote => vote.UserID == userID) w = true
  · right
    obtain ⟨l₁, a, l₂, hsplit, h₁, ha⟩ := split_at_first _ p.Votes h
    refine ⟨l₁, a, l₂, hsplit, ?_, by simpa using ha, ?_⟩
    · intro w hw
      simpa using h₁ w hw
    · have hfind := rangeFind_present (fun vote : Vote => vote.UserID == userID) l₁ a l₂ 0 h₁ ha
      simp only [DeleteVote, hsplit, hfind, Nat.zero_add, removeAt_split]
      simp
  · left
    have habs : ∀ w ∈ p.Votes, (fun vote : Vote => vote.UserID == userID) w = false := by
      intro w hw
      by_contra hc
      exact h ⟨w, hw, by simpa using hc⟩
    refine ⟨?_, ?_⟩
    · intro w hw
      simpa using habs w hw
    · simp only [DeleteVote, rangeFind_absent _ _ _ habs]
      simp

theorem AddVote_oneVotePerUser (p : Post) (v : Vote) (voteValue : Int)
    (h : OneVotePerUser p.Votes) :
    ∃ p1, AddVote p v voteValue = .returned none p1 ∧ OneVotePerUser p1.Votes := by
  rcases AddVote_cases p v voteValue with ⟨habs, hres⟩ | ⟨l₁, a, l₂, hsplit, _, _, hres⟩
  · refine ⟨_, hres, ?_⟩
    rw [issueScoreAndPercentage_votes]
    unfold OneVotePerUser at h ⊢
    simp only [List.map_append, List.map_cons, List.map_nil]
    refine List.Nodup.append h (List.nodup_singleton _) ?_
    intro x hx hx2
    obtain ⟨w, hw, hwx⟩ := List.mem_map.mp hx
    have hxv : x = v.UserID := by simpa using hx2
    exact habs w hw (hwx.trans hxv)
  · refine ⟨_, hres, ?_⟩
    rw [issueScoreAndPercentage_votes]
    unfold OneVotePerUser at h ⊢
    rw [hsplit] at h
    simpa using h

theorem DeleteVote_oneVotePerUser (p : Post) (userID : String)
    (h : OneVotePerUser p.Votes) :
    ∃ e p1, DeleteVote p userID = .returned e p1 ∧ OneVotePerUser p1.Votes := by
  rcases DeleteVote_cases p userID with ⟨_, hres⟩ | ⟨l₁, a, l₂, hsplit, _, _, hres⟩
  · exact ⟨_, _, hres, h⟩
  · refine ⟨_, _, hres, ?_⟩
    rw [issueScoreAndPercentage_votes]
    unfold OneVotePerUser at h ⊢
    rw [hsplit] at h
    refine List.Nodup.sublist ?_ h
    exact List.Sublist.map _ (List.Sublist.append_left (List.sublist_cons_self a l₂) l₁)

theorem runVoteCalls_oneVotePerUser (calls : List VoteCall) (p : Post)
    (h : OneVotePerUser p.Votes) :
    ∃ p1, runVoteCalls p calls = some p1 ∧ OneVotePerUser p1.Votes := by
  induction calls generalizing p with
  | nil => exact ⟨p, rfl, h⟩
  | cons c cs ih =>
    cases c with
    | addVote v voteValue =>
      obtain ⟨q, hq, hinv⟩ := AddVote_oneVotePerUser p v voteValue h
      obtain ⟨r, hr, hinv2⟩ := ih q hinv
      exact ⟨r, by simp only [runVoteCalls, runVoteCall, hq, hr], hinv2⟩
    | deleteVote userID =>
      obtain ⟨e, q, hq, hinv⟩ := DeleteVote_oneVotePerUser p userID h
      obtain ⟨r, hr, hinv2⟩ := ih q hinv
      exact ⟨r, by simp only [runVoteCalls, runVoteCall, hq, hr], hinv2⟩

theorem handlerNewPost_votes (rf : RequestForm) (sessUserName sessUserID postID formDate : String) :
    (handlerNewPost rf sessUserName sessUserID postID formDate).Votes
      = [⟨sessUserID, UpvoteValue⟩] := by
  unfold handlerNewPost
  split_ifs <;> rfl

/-- C5. If the vote sequence of a post holds at most one vote per user-id, then
`AddVote` returns and the sequence still does, `DeleteVote` returns (with or
without an error) and the sequence still does, and so after any sequence of such
calls; a post as `PostHandler.AddPost` builds it (one vote, the author's) never
holds two votes of one user-id, whatever sequence of `AddVote` and `DeleteVote`
calls is made on it. -/
theorem one_vote_per_user_preserved (p : Post) (h : OneVotePerUser p.Votes) :
    (∀ v voteValue, ∃ p1, AddVote p v voteValue = .returned none p1 ∧ OneVotePerUser p1.Votes)
      ∧ (∀ userID, ∃ e p1, DeleteVote p userID = .returned e p1 ∧ OneVotePerUser p1.Votes)
      ∧ (∀ calls, ∃ p1, runVoteCalls p calls = some p1 ∧ OneVotePerUser p1.Votes)
      ∧ (∀ rf sessUserName sessUserID postID formDate calls,
          ∃ p1, runVoteCalls (handlerNewPost rf sessUserName sessUserID postID formDate) calls
              = some p1
            ∧ OneVotePerUser p1.Votes) := by
  refine ⟨fun v voteValue => AddVote_oneVotePerUser p v voteValue h,
    fun userID => DeleteVote_oneVotePerUser p userID h,
    fun calls => runVoteCalls_oneVotePerUser calls p h, ?_⟩
  intro rf sessUserName sessUserID postID formDate calls
  refine runVoteCalls_oneVotePerUser calls _ ?_
  rw [handlerNewPost_votes]
  exact List.nodup_singleton _

/-- C5, witness: the post of the worked example and the calls `sampleCalls`. -/
theorem one_vote_per_user_preserved_witness :
    ∃ p1, runVoteCalls threeVotePost sampleCalls = some p1 ∧ OneVotePerUser p1.Votes :=
  (one_vote_per_user_preserved threeVotePost (by unfold OneVotePerUser; decide)).2.2.1 sampleCalls

theorem AddVote_present (p : Post) (v : Vote) (voteValue : Int) (l₁ : List Vote) (a : Vote)
    (l₂ : List Vote) (hsplit : p.Votes = l₁ ++ a :: l₂) (h₁ : ∀ w ∈ l₁, w.UserID ≠ v.UserID)
    (ha : a.UserID = v.UserID) :
    AddVote p v voteValue
      = .returned none
          (issueScoreAndPercentage { p with Votes := l₁ ++ { a with Vote := voteValue } :: l₂ }) := by
  have hfind := rangeFind_present (fun vote : Vote => v.UserID == vote.UserID) l₁ a l₂ 0
    (fun w hw => by
      have hne := h₁ w hw
      simpa using fun heq : v.UserID = w.UserID => hne heq.symm)
    (by simp [ha])
  simp only [AddVote, hsplit, hfind, Nat.zero_add, goSetVote_split]
  simp

theorem issueScoreAndPercentage_idem (p : Post) :
    issueScoreAndPercentage { issueScoreAndPercentage p with Votes := p.Votes }
      = issueScoreAndPercentage p := rfl

/-- C6. For every post with at most one vote per user-id, every user `U` and all
values `x`, `y` in `{+1, -1}`: `AddVote` for `U` with value `x` and then `AddVote`
for `U` with value `y` (each vote passed carries the value argument in its `Vote`
field) both return. With `l₁` the votes before the vote of `U` and `l₂` those after
it, the votes are `l₁`, the vote of `U` with value `x`, `l₂` after the first call and
`l₁`, the vote of `U` with value `y`, `l₂` after the second: same length, one vote of
`U`, at the same position. `l₁` and `l₂` are the votes of the other users as the post
had them before the first call: all its votes when `U` had none (the vote of `U` is
appended), and the votes around the vote of `U` when it had one. With `x = y` the
second call leaves the whole post, votes, score and percentage, as the first call
left it. -/
theorem AddVote_twice_updates_in_place (p : Post) (h : OneVotePerUser p.Votes) (U : String)
    (x y : Int) (_hx : x = 1 ∨ x = -1) (_hy : y = 1 ∨ y = -1) :
    ∃ (p1 p2 : Post) (l₁ l₂ : List Vote),
      AddVote p ⟨U, x⟩ x = .returned none p1
        ∧ AddVote p1 ⟨U, y⟩ y = .returned none p2
        ∧ p1.Votes = l₁ ++ ⟨U, x⟩ :: l₂
        ∧ p2.Votes = l₁ ++ ⟨U, y⟩ :: l₂
        ∧ (∀ w ∈ l₁, w.UserID ≠ U) ∧ (∀ w ∈ l₂, w.UserID ≠ U)
        ∧ p2.Votes.length = p1.Votes.length
        ∧ ((∀ w ∈ p.Votes, w.UserID ≠ U) → p.Votes = l₁ ∧ l₂ = [])
        ∧ ((∃ w ∈ p.Votes, w.UserID = U) → ∃ old, p.Votes = l₁ ++ ⟨U, old⟩ :: l₂)
        ∧ (x = y → p2 = p1) := by
  have key : ∀ (q : Post) (l₁ l₂ : List Vote), q.Votes = l₁ ++ ⟨U, x⟩ :: l₂ →
      (∀ w ∈ l₁, w.UserID ≠ U) → (∀ w ∈ l₂, w.UserID ≠ U) →
      AddVote p ⟨U, x⟩ x = .returned none (issueScoreAndPercentage q) →
      ((∀ w ∈ p.Votes, w.UserID ≠ U) → p.Votes = l₁ ∧ l₂ = []) →
      ((∃ w ∈ p.Votes, w.UserID = U) → ∃ old, p.Votes = l₁ ++ ⟨U, old⟩ :: l₂) →
      ∃ (p1 p2 : Post) (l₁ l₂ : List Vote),
        AddVote p ⟨U, x⟩ x = .returned none p1
          ∧ AddVote p1 ⟨U, y⟩ y = .returned none p2
          ∧ p1.Votes = l₁ ++ ⟨U, x⟩ :: l₂
          ∧ p2.Votes = l₁ ++ ⟨U, y⟩ :: l₂
          ∧ (∀ w ∈ l₁, w.UserID ≠ U) ∧ (∀ w ∈ l₂, w.UserID ≠ U)
          ∧ p2.Votes.length = p1.Votes.length
          ∧ ((∀ w ∈ p.Votes, w.UserID ≠ U) → p.Votes = l₁ ∧ l₂ = [])
          ∧ ((∃ w ∈ p.Votes, w.UserID = U) → ∃ old, p.Votes = l₁ ++ ⟨U, old⟩ :: l₂)
          ∧ (x = y → p2 = p1) := by
    intro q l₁ l₂ hq h₁ h₂ hfirst habsent hpresent
    have hsecond := AddVote_present (issueScoreAndPercentage q) ⟨U, y⟩ y l₁ ⟨U, x⟩ l₂
      (by rw [issueScoreAndPercentage_votes]; exact hq) h₁ rfl
    refine ⟨_, _, l₁, l₂, hfirst, hsecond, by rw [issueScoreAndPercentage_votes]; exact hq,
      by rw [issueScoreAndPercentage_votes], h₁, h₂, ?_, habsent, hpresent, ?_⟩
    · simp [issueScoreAndPercentage_votes, hq]
    · intro hxy
      subst hxy
      have hq2 : l₁ ++ ({ UserID := U, Vote := x } : Vote) :: l₂ = q.Votes := hq.symm
      show issueScoreAndPercentage
          { issueScoreAndPercentage q with Votes := l₁ ++ ({ UserID := U, Vote := x } : Vote) :: l₂ }
        = issueScoreAndPercentage q
      rw [hq2]
      exact issueScoreAndPercentage_idem q
  rcases AddVote_cases p ⟨U, x⟩ x with ⟨habs, hres⟩ | ⟨l₁, a, l₂, hsplit, h₁, ha, hres⟩
  · refine key _ p.Votes [] (by simp) habs (by simp) hres (fun _ => ⟨rfl, rfl⟩) ?_
    rintro ⟨w, hw, hwu⟩
    exact absurd hwu (habs w hw)
  · have haU : a.UserID = U := ha
    have h₂ : ∀ w ∈ l₂, w.UserID ≠ U := by
      intro w hw heq
      unfold OneVotePerUser at h
      rw [hsplit] at h
      simp only [List.map_append, List.map_cons] at h
      have hnd := (List.nodup_append.mp h).2.1
      have hnotin := (List.nodup_cons.mp hnd).1
      exact hnotin (List.mem_map.mpr ⟨w, hw, heq.trans haU.symm⟩)
    have hval : ({ a with Vote := x } : Vote) = ⟨U, x⟩ := by
      cases a
      simp at haU
      simp [haU]
    have hold : p.Votes = l₁ ++ ⟨U, a.Vote⟩ :: l₂ := by
      rw [hsplit]
      cases a
      simp at haU
      simp [haU]
    rw [hval] at hres
    refine key _ l₁ l₂ rfl h₁ h₂ hres ?_ (fun _ => ⟨a.Vote, hold⟩)
    intro habs
    exact absurd haU (habs a (by simp [hsplit]))

/-- C6, witness: user `b2`, whose upvote stands between two other votes, downvotes
and then upvotes. -/
theorem AddVote_twice_updates_in_place_witness :
    ∃ (p1 p2 : Post) (l₁ l₂ : List Vote),
      AddVote threeVotePost ⟨"b2", -1⟩ (-1) = .returned none p1
        ∧ AddVote p1 ⟨"b2", 1⟩ 1 = .returned none p2
        ∧ p1.Votes = l₁ ++ ⟨"b2", -1⟩ :: l₂
        ∧ p2.Votes = l₁ ++ ⟨"b2", 1⟩ :: l₂
        ∧ (∀ w ∈ l₁, w.UserID ≠ "b2") ∧ (∀ w ∈ l₂, w.UserID ≠ "b2")
        ∧ p2.Votes.length = p1.Votes.length
        ∧ ((∀ w ∈ threeVotePost.Votes, w.UserID ≠ "b2") →
            threeVotePost.Votes = l₁ ∧ l₂ = [])
        ∧ ((∃ w ∈ threeVotePost.Votes, w.UserID = "b2") →
            ∃ old, threeVotePost.Votes = l₁ ++ ⟨"b2", old⟩ :: l₂)
        ∧ ((-1 : Int) = 1 → p2 = p1) :=
  AddVote_twice_updates_in_place threeVotePost (by unfold OneVotePerUser; decide) "b2" (-1) 1
    (by decide) (by decide)

theorem issueScoreAndPercentage_inSync (p : Post) : ScoreInSync (issueScoreAndPercentage p) :=
  ⟨issueScoreAndPercentage_score p, issueScoreAndPercentage_percentage p⟩

theorem runVoteCall_inSync (p : Post) (c : VoteCall) (h : ScoreInSync p) :
    ∃ e p1, runVoteCall p c = .returned e p1 ∧ ScoreInSync p1 := by
  cases c with
  | addVote v voteValue =>
    rcases AddVote_cases p v voteValue with ⟨_, hres⟩ | ⟨l₁, a, l₂, _, _, _, hres⟩
    · exact ⟨_, _, hres, issueScoreAndPercentage_inSync _⟩
    · exact ⟨_, _, hres, issueScoreAndPercentage_inSync _⟩
  | deleteVote userID =>
    rcases DeleteVote_cases p userID with ⟨_, hres⟩ | ⟨l₁, a, l₂, _, _, _, hres⟩
    · exact ⟨_, _, hres, h⟩
    · exact ⟨_, _, hres, issueScoreAndPercentage_inSync _⟩

theorem runVoteCalls_inSync (calls : List VoteCall) (p : Post) (h : ScoreInSync p) :
    ∃ p1, runVoteCalls p calls = some p1 ∧ ScoreInSync p1 := by
  induction calls generalizing p with
  | nil => exact ⟨p, rfl, h⟩
  | cons c cs ih =>
    obtain ⟨e, q, hq, hinv⟩ := runVoteCall_inSync p c h
    obtain ⟨r, hr, hinv2⟩ := ih q hinv
    exact ⟨r, by simp only [runVoteCalls, hq, hr], hinv2⟩

theorem scoringPercentage_eq_float64Percentage (votes : List Vote)
    (h : ∀ v ∈ votes, v.Vote = 1 ∨ v.Vote = -1) :
    scoringPercentage votes = float64Percentage votes := by
  simp only [scoringPercentage, scoreLoop_counts votes h, percentageOf, float64Percentage]
  simp [Nat.pos_iff_ne_zero]

set_option maxRecDepth 100000 in
theorem handlerNewPost_inSync (rf : RequestForm)
    (sessUserName sessUserID postID formDate : String)
    (htype : rf.Type_ = "text" ∨ rf.Type_ = "link") :
    ScoreInSync (handlerNewPost rf sessUserName sessUserID postID formDate) := by
  have hv := handlerNewPost_votes rf sessUserName sessUserID postID formDate
  have hsum : voteSum [(⟨sessUserID, UpvoteValue⟩ : Vote)] = 1 := by
    simp [voteSum, UpvoteValue]
  have hpct : scoringPercentage [(⟨sessUserID, UpvoteValue⟩ : Vote)] = 100 := by
    simp [scoringPercentage, scoreLoop, percentageOf, UpvoteValue]
  unfold ScoreInSync
  rw [hv, hsum, hpct]
  unfold handlerNewPost
  rcases htype with ht | ht
  · simp [ht]
  · have hne : ¬ rf.Type_ = "text" := by rw [ht]; decide
    simp [ht]

theorem runVoteCall_plusMinusOne (p : Post) (c : VoteCall)
    (hp : ∀ v ∈ p.Votes, v.Vote = 1 ∨ v.Vote = -1) (hc : c.plusMinusOne = true) :
    ∃ e p1, runVoteCall p c = .returned e p1 ∧ ∀ v ∈ p1.Votes, v.Vote = 1 ∨ v.Vote = -1 := by
  cases c with
  | addVote w voteValue =>
    simp only [VoteCall.plusMinusOne, Bool.and_eq_true, decide_eq_true_eq] at hc
    rcases AddVote_cases p w voteValue with ⟨_, hres⟩ | ⟨l₁, a, l₂, hsplit, _, _, hres⟩
    · refine ⟨_, _, hres, ?_⟩
      intro v hv
      rw [issueScoreAndPercentage_votes] at hv
      rcases List.mem_append.mp hv with hv | hv
      · exact hp v hv
      · rw [List.mem_singleton.mp hv]
        exact hc.1
    · refine ⟨_, _, hres, ?_⟩
      intro v hv
      rw [issueScoreAndPercentage_votes] at hv
      rw [hsplit] at hp
      rcases List.mem_append.mp hv with hv | hv
      · exact hp v (List.mem_append_left _ hv)
      · rcases List.mem_cons.mp hv with hv | hv
        · rw [hv]
          exact hc.2
        · exact hp v (List.mem_append_right _ (List.mem_cons_of_mem _ hv))
  | deleteVote userID =>
    rcases DeleteVote_cases p userID with ⟨_, hres⟩ | ⟨l₁, a, l₂, hsplit, _, _, hres⟩
    · exact ⟨_, _, hres, hp⟩
    · refine ⟨_, _, hres, ?_⟩
      intro v hv
      rw [issueScoreAndPercentage_votes] at hv
      rw [hsplit] at hp
      rcases List.mem_append.mp hv with hv | hv
      · exact hp v (List.mem_append_left _ hv)
      · exact hp v (List.mem_append_right _ (List.mem_cons_of_mem _ hv))

theorem runVoteCalls_plusMinusOne (calls : List VoteCall) (p : Post)
    (hp : ∀ v ∈ p.Votes, v.Vote = 1 ∨ v.Vote = -1)
    (hcalls : ∀ c ∈ calls, c.plusMinusOne = true) (p1 : Post)
    (hrun : runVoteCalls p calls = some p1) :
    ∀ v ∈ p1.Votes, v.Vote = 1 ∨ v.Vote = -1 := by
  induction calls generalizing p with
  | nil =>
    simp only [runVoteCalls, Option.some.injEq] at hrun
    rw [← hrun]
    exact hp
  | cons c cs ih =>
    obtain ⟨e, q, hq, hqv⟩ :=
      runVoteCall_plusMinusOne p c hp (hcalls c (List.mem_cons_self c cs))
    simp only [runVoteCalls, hq] at hrun
    exact ih q hqv (fun d hd => hcalls d (List.mem_cons_of_mem c hd)) hrun

/-- C7 (amended). A post as `PostHandler.AddPost` builds it for a `text` or `link`
request (votes: the author's `+1`; `Score = 1`; `UpvotePercentage = 100`) and then
changed by any finite sequence of `AddVote` and `DeleteVote` calls that pass vote
values `+1` or `-1`, as the handlers do: every call returns, and after the sequence
(so after every call) every vote has the value `+1` or `-1`, the stored `Score` is
the sum of the values of the votes the post holds, and the stored
`UpvotePercentage` is `0` when that sum is `0`, otherwise, when a downvote exists,
`math.Round` of the `float64` product
`float64(upvoteCount) / float64(downvoteCount) * 100`, otherwise `100`. -/
theorem score_and_percentage_in_sync (rf : RequestForm)
    (sessUserName sessUserID postID formDate : String)
    (htype : rf.Type_ = "text" ∨ rf.Type_ = "link") (calls : List VoteCall)
    (hcalls : ∀ c ∈ calls, c.plusMinusOne = true) :
    (handlerNewPost rf sessUserName sessUserID postID formDate).Votes = [⟨sessUserID, 1⟩]
      ∧ (handlerNewPost rf sessUserName sessUserID postID formDate).Score = 1
      ∧ (handlerNewPost rf sessUserName sessUserID postID formDate).UpvotePercentage = 100
      ∧ ∃ p1, runVoteCalls (handlerNewPost rf sessUserName sessUserID postID formDate) calls
            = some p1
          ∧ (∀ v ∈ p1.Votes, v.Vote = 1 ∨ v.Vote = -1)
          ∧ p1.Score = voteSum p1.Votes
          ∧ p1.UpvotePercentage
              = if voteSum p1.Votes = 0 then 0
                else if 0 < downvoteCount p1.Votes then
                  mathRoundToInt
                    (f64Mul
                      (f64Div (float64 (upvoteCount p1.Votes)) (float64 (downvoteCount p1.Votes)))
                      (float64 100))
                else 100 := by
  have hsync := handlerNewPost_inSync rf sessUserName sessUserID postID formDate htype
  have hv := handlerNewPost_votes rf sessUserName sessUserID postID formDate
  obtain ⟨p1, hrun, hs, hp⟩ := runVoteCalls_inSync calls _ hsync
  have hinit : ∀ v ∈ (handlerNewPost rf sessUserName sessUserID postID formDate).Votes,
      v.Vote = 1 ∨ v.Vote = -1 := by
    rw [hv]
    intro v hvm
    rw [List.mem_singleton.mp hvm]
    exact Or.inl rfl
  have hpm := runVoteCalls_plusMinusOne calls _ hinit hcalls p1 hrun
  refine ⟨hv, ?_, ?_, p1, hrun, hpm, hs, ?_⟩
  · rw [hsync.1, hv]; simp [voteSum, UpvoteValue]
  · rw [hsync.2, hv]; simp [scoringPercentage, scoreLoop, percentageOf, UpvoteValue]
  · rw [hp, scoringPercentage_eq_float64Percentage _ hpm]
    rfl

/-- C7, witness: a text post of `alice` and the calls `sampleCalls`. -/
theorem score_and_percentage_in_sync_witness :
    ∃ p1, runVoteCalls (handlerNewPost sampleForm "alice" "a1" "p1" "") sampleCalls = some p1
      ∧ (∀ v ∈ p1.Votes, v.Vote = 1 ∨ v.Vote = -1)
      ∧ p1.Score = voteSum p1.Votes
      ∧ p1.UpvotePercentage
          = if voteSum p1.Votes = 0 then 0
            else if 0 < downvoteCount p1.Votes then
              mathRoundToInt
                (f64Mul
                  (f64Div (float64 (upvoteCount p1.Votes)) (float64 (downvoteCount p1.Votes)))
                  (float64 100))
            else 100 :=
  (score_and_percentage_in_sync sampleForm "alice" "a1" "p1" "" (Or.inl rfl) sampleCalls
    (by decide)).2.2.2

set_option maxRecDepth 100000 in
/-- C7, counterexample. On a text post created by user `u01`, twenty-two other
users upvote and forty downvote, each through `AddVote` with the value `+1` or `-1`.
All calls return; the post then holds 23 upvotes and 40 downvotes, the stored
`Score` is their sum `-17`, and the stored `UpvotePercentage` is `57`, while the
scoring rule over the exact quotient, `round(23 / 40 * 100) = round(57.5)`, gives
`58`. -/
theorem stored_percentage_not_exact_ratio :
    (handlerNewPost sampleForm "alice" "u01" "p1" "").Votes = [⟨"u01", 1⟩]
      ∧ (∀ c ∈ ratioCalls, c.plusMinusOne = true)
      ∧ (runVoteCalls (handlerNewPost sampleForm "alice" "u01" "p1" "") ratioCalls).map
            (fun p => (p.Votes, p.Score, p.UpvotePercentage, exactRatioPercentage p.Votes))
          = some (ratioVotes, -17, 57, 58) := by
  decide

/-- C8. For every post and userID, `DeleteVote` returns; the error it returns is
`ErrAccessDenied` if and only if no vote of the post has that userID, and then the
post (vote sequence, `Score`, `UpvotePercentage`) is unchanged. -/
theorem DeleteVote_access_denied_iff_no_vote (p : Post) (userID : String) :
    ∃ e p1, DeleteVote p userID = .returned e p1
      ∧ (e = some RepoError.ErrAccessDenied ↔ ∀ v ∈ p.Votes, v.UserID ≠ userID)
      ∧ (e = some RepoError.ErrAccessDenied → p1 = p) := by
  rcases DeleteVote_cases p userID with ⟨habs, hres⟩ | ⟨l₁, a, l₂, hsplit, _, ha, hres⟩
  · exact ⟨_, _, hres, ⟨fun _ => habs, fun _ => rfl⟩, fun _ => rfl⟩
  · refine ⟨_, _, hres, ⟨fun he => absurd he (by simp), fun hall => ?_⟩,
      fun he => absurd he (by simp)⟩
    exact absurd ha (hall a (by simp [hsplit]))

/-- What a returning `DeletePost` has done: refused the caller, or removed the
post at the index it found. -/
theorem DeletePost_returned (repo : PostsMemoryRepository) (p : Post) (userName userID : String)
    (e : Option RepoError) (after : PostsMemoryRepository)
    (h : DeletePost repo p userName userID = .returned e after) :
    (userID ≠ p.Author.ID ∧ e = some .ErrAccessDenied ∧ after = repo)
      ∨ (userID = p.Author.ID ∧ e = none ∧ ∃ rest,
          removeAt ((repo.UserPostsData userName).getD [])
              (rangeFind (fun post => post.ID == p.ID)
                ((repo.UserPostsData userName).getD []) 0).2 = some rest
            ∧ after = { DeletePostFaultState repo p with
                        UserPostsData := repo.UserPostsData.set userName rest }) := by
  unfold DeletePost at h
  by_cases hid : userID = p.Author.ID
  · right
    simp only [hid, bne_self_eq_false, Bool.false_eq_true, if_false] at h
    cases hrem : removeAt ((repo.UserPostsData userName).getD [])
        (rangeFind (fun post => post.ID == p.ID) ((repo.UserPostsData userName).getD []) 0).2 with
    | none => rw [hrem] at h; exact absurd h (by simp)
    | some rest =>
      rw [hrem] at h
      simp only [Outcome.returned.injEq] at h
      exact ⟨hid, h.1.symm, rest, rfl, h.2.symm⟩
  · left
    have hne : (userID != p.Author.ID) = true := by simpa using hid
    simp only [hne, if_true, Outcome.returned.injEq] at h
    exact ⟨hid, h.1.symm, h.2.symm⟩

theorem DeletePostFaultState_categories (repo : PostsMemoryRepository) (p : Post) (c : String) :
    ((DeletePostFaultState repo p).AllDataWithCategories c).isSome
      = (repo.AllDataWithCategories c).isSome := by
  unfold DeletePostFaultState
  cases hb : repo.AllDataWithCategories p.Category with
  | none => rfl
  | some bucket =>
    simp only [GoMap.set]
    by_cases hc : c = p.Category
    · simp [hc, hb]
    · simp [hc]

theorem runRepoCall_categories (repo : PostsMemoryRepository) (call : RepoCall)
    (e : Option RepoError) (after : PostsMemoryRepository)
    (h : runRepoCall repo call = .returned e after) (c : String) :
    (after.AllDataWithCategories c).isSome = (repo.AllDataWithCategories c).isSome := by
  cases call with
  | addPost p =>
    simp only [runRepoCall, AddPost] at h
    cases hb : repo.AllDataWithCategories p.Category with
    | none =>
      rw [hb] at h
      simp only [Outcome.returned.injEq] at h
      rw [← h.2]
    | some bucket =>
      rw [hb] at h
      simp only [Outcome.returned.injEq] at h
      rw [← h.2]
      simp only [GoMap.set]
      by_cases hc : c = p.Category
      · simp [hc, hb]
      · simp [hc]
  | addUserPost userName p =>
    simp only [runRepoCall, AddUserPost, Outcome.returned.injEq] at h
    rw [← h.2]
    cases repo.UserPostsData userName <;> rfl
  | deletePost p userName userID =>
    rcases DeletePost_returned repo p userName userID e after h with
      ⟨_, _, hafter⟩ | ⟨_, _, rest, _, hafter⟩
    · rw [hafter]
    · rw [hafter]
      exact DeletePostFaultState_categories repo p c
  | changePosts g =>
    simp only [runRepoCall, Outcome.returned.injEq] at h
    rw [← h.2]
    simp [mapStoredPosts]

theorem NewPostMemoryRepository_categories (c : String) :
    (NewPostMemoryRepository.AllDataWithCategories c).isSome = true ↔ c ∈ validCategories := by
  simp only [NewPostMemoryRepository, GoMap.set, GoMap.empty, validCategories]
  constructor
  · intro h
    by_contra hc
    simp only [List.mem_cons, List.mem_singleton, List.not_mem_nil, or_false, not_or] at hc
    simp [hc.1, hc.2.1, hc.2.2.1, hc.2.2.2.1, hc.2.2.2.2.1, hc.2.2.2.2.2] at h
  · intro h
    simp only [List.mem_cons, List.mem_singleton, List.not_mem_nil, or_false] at h
    rcases h with h | h | h | h | h | h <;> subst h <;> decide

/-- In every state reached from `NewPostMemoryRepository` the keys of
`AllDataWithCategories` are the six categories. -/
theorem ReachedBy_categories (calls : List RepoCall) (repo : PostsMemoryRepository)
    (h : ReachedBy calls repo) (c : String) :
    (repo.AllDataWithCategories c).isSome = true ↔ c ∈ validCategories := by
  induction h with
  | start => exact NewPostMemoryRepository_categories c
  | call calls repo call e after _ hrun ih =>
    rw [runRepoCall_categories repo call e after hrun c]
    exact ih
  | fault calls repo p userName userID _ _ ih =>
    rw [DeletePostFaultState_categories repo p c]
    exact ih

/-- C12. In every repository state reached from `NewPostMemoryRepository` and for
every post whose category is none of the six categories, the empty string
included, `AddPost` returns `ErrWrongCategory` and the repository (global table,
category buckets, author lists) is the one before the call. -/
theorem AddPost_wrong_category_no_effect (calls : List RepoCall)
    (repo : PostsMemoryRepository) (hreach : ReachedBy calls repo) (p : Post)
    (hcat : p.Category ≠ "music" ∧ p.Category ≠ "funny" ∧ p.Category ≠ "videos"
      ∧ p.Category ≠ "programming" ∧ p.Category ≠ "news" ∧ p.Category ≠ "fashion") :
    AddPost repo p = .returned (some .ErrWrongCategory) repo
      ∧ (∀ q : Post, q.Category = "" →
          AddPost repo q = .returned (some .ErrWrongCategory) repo) := by
  have key : ∀ q : Post, q.Category ∉ validCategories →
      AddPost repo q = .returned (some .ErrWrongCategory) repo := by
    intro q hq
    have hnone : repo.AllDataWithCategories q.Category = none := by
      cases hb : repo.AllDataWithCategories q.Category with
      | none => rfl
      | some bucket =>
        exact absurd ((ReachedBy_categories calls repo hreach q.Category).mp (by simp [hb])) hq
    simp only [AddPost, hnone]
  refine ⟨key p (by simpa [validCategories, not_or] using hcat), ?_⟩
  intro q hq
  exact key q (by rw [hq]; decide)

/-- C12, witness: a post of category `sports` offered to the repository that
holds `otherPost` and `blankPost`. -/
theorem AddPost_wrong_category_no_effect_witness :
    AddPost twoPostRepo { blankPost with Category := "sports" }
        = .returned (some .ErrWrongCategory) twoPostRepo
      ∧ (∀ q : Post, q.Category = "" →
          AddPost twoPostRepo q = .returned (some .ErrWrongCategory) twoPostRepo) :=
  AddPost_wrong_category_no_effect
    [.addPost otherPost, .addUserPost "alice" otherPost, .addPost blankPost,
      .addUserPost "alice" blankPost]
    twoPostRepo
    (ReachedBy.call _ _ (.addUserPost "alice" blankPost) none _
      (ReachedBy.call _ _ (.addPost blankPost) none _
        (ReachedBy.call _ _ (.addUserPost "alice" otherPost) none _
          (ReachedBy.call [] NewPostMemoryRepository (.addPost otherPost) none _
            ReachedBy.start rfl)
          rfl)
        rfl)
      rfl)
    { blankPost with Category := "sports" } (by decide)

/-! ## Runs of the post repository: the author keys -/

theorem removeAt_nil {α : Type} (index : Int) : removeAt ([] : List α) index = none := by
  unfold removeAt goSliceFrom
  simp only [List.length_nil, Nat.cast_zero]
  by_cases h : 0 ≤ index ∧ index ≤ 0
  · have h2 : ¬ (0 ≤ index + 1 ∧ index + 1 ≤ 0) := by omega
    rw [if_pos h, if_neg h2]
  · rw [if_neg h]

theorem runRepoCall_authorKeys (repo : PostsMemoryRepository) (call : RepoCall)
    (e : Option RepoError) (after : PostsMemoryRepository)
    (h : runRepoCall repo call = .returned e after) (u : String) :
    (after.UserPostsData u).isSome = true
      ↔ (repo.UserPostsData u).isSome = true ∨ ∃ p, call = .addUserPost u p := by
  cases call with
  | addPost p =>
    simp only [runRepoCall, AddPost] at h
    cases hb : repo.AllDataWithCategories p.Category with
    | none =>
      rw [hb] at h
      simp only [Outcome.returned.injEq] at h
      rw [← h.2]
      simp
    | some bucket =>
      rw [hb] at h
      simp only [Outcome.returned.injEq] at h
      rw [← h.2]
      simp
  | addUserPost userName p =>
    simp only [runRepoCall, AddUserPost, Outcome.returned.injEq] at h
    rw [← h.2]
    by_cases hu : u = userName
    · subst hu
      simp [GoMap.set]
    · have hne : ∀ q, RepoCall.addUserPost userName p ≠ RepoCall.addUserPost u q := by
        intro q hq
        injection hq with h1 _
        exact hu h1.symm
      cases hk : repo.UserPostsData userName <;> simp [GoMap.set, hu, hne]
  | deletePost p userName userID =>
    rcases DeletePost_returned repo p userName userID e after h with
      ⟨_, _, hafter⟩ | ⟨_, _, rest, hrem, hafter⟩
    · rw [hafter]
      simp
    · rw [hafter]
      simp only [GoMap.set, reduceCtorEq, exists_false, or_false]
      by_cases hu : u = userName
      · subst hu
        cases hk : repo.UserPostsData u with
        | none =>
          rw [hk] at hrem
          simp only [Option.getD_none, removeAt_nil] at hrem
          exact absurd hrem (by simp)
        | some l => simp
      · simp [hu, DeletePostFaultState]
  | changePosts g =>
    simp only [runRepoCall, Outcome.returned.injEq] at h
    rw [← h.2]
    simp [mapStoredPosts]

/-- In every state reached from `NewPostMemoryRepository`, the keys of
`UserPostsData` are the user names `AddUserPost` has been called for. -/
theorem ReachedBy_authorKeys (calls : List RepoCall) (repo : PostsMemoryRepository)
    (h : ReachedBy calls repo) (u : String) :
    (repo.UserPostsData u).isSome = true ↔ ∃ p, RepoCall.addUserPost u p ∈ calls := by
  induction h with
  | start => simp [NewPostMemoryRepository, GoMap.empty]
  | call calls repo call e after _ hrun ih =>
    rw [runRepoCall_authorKeys repo call e after hrun u, ih]
    constructor
    · rintro (⟨p, hp⟩ | ⟨p, hp⟩)
      · exact ⟨p, List.mem_append_left _ hp⟩
      · exact ⟨p, by simp [hp]⟩
    · rintro ⟨p, hp⟩
      rcases List.mem_append.mp hp with hp | hp
      · exact Or.inl ⟨p, hp⟩
      · exact Or.inr ⟨p, (List.mem_singleton.mp hp).symm⟩
  | fault calls repo p userName userID _ _ ih =>
    show (repo.UserPostsData u).isSome = true ↔ _
    rw [ih]
    constructor
    · rintro ⟨q, hq⟩
      exact ⟨q, List.mem_append_left _ hq⟩
    · rintro ⟨q, hq⟩
      rcases List.mem_append.mp hq with hq | hq
      · exact ⟨q, hq⟩
      · exact absurd (List.mem_singleton.mp hq) (by simp)

/-! ## Runs of create and delete: the three tables agree -/

theorem IndexesAgree_new : IndexesAgree NewPostMemoryRepository := by
  refine ⟨?_, ?_, ?_⟩
  · intro id p h
    simp [NewPostMemoryRepository, GoMap.empty] at h
  · intro c bucket k q hb hk
    simp only [NewPostMemoryRepository, GoMap.set, GoMap.empty] at hb
    split_ifs at hb
    all_goals
      have hbe := Option.some.inj hb
      subst hbe
      simp [GoMap.empty] at hk
  · intro u posts q h
    simp [NewPostMemoryRepository, GoMap.empty] at h

/-- The state the handler's two calls leave when the bucket of the category
exists. -/
theorem handlerStorePost_eq (repo : PostsMemoryRepository) (userName : String) (p : Post)
    (bucket : GoMap Post) (hb : repo.AllDataWithCategories p.Category = some bucket) :
    handlerStorePost repo userName p
      = .returned none
          { AllData := repo.AllData.set p.ID p
            AllDataWithCategories := repo.AllDataWithCategories.set p.Category (bucket.set p.ID p)
            UserPostsData :=
              repo.UserPostsData.set userName ((repo.UserPostsData userName).getD [] ++ [p]) } := by
  simp only [handlerStorePost, AddPost, hb, AddUserPost]
  cases hk : repo.UserPostsData userName with
  | none =>
    simp only [Outcome.returned.injEq, true_and]
    congr 1
    funext u
    simp only [GoMap.set]
    split_ifs <;> simp
  | some l => simp [hk]

theorem IndexesAgree_create (repo : PostsMemoryRepository) (p : Post) (bucket : GoMap Post)
    (hinv : IndexesAgree repo) (hb : repo.AllDataWithCategories p.Category = some bucket)
    (hfresh : repo.AllData p.ID = none) :
    IndexesAgree
      { AllData := repo.AllData.set p.ID p
        AllDataWithCategories := repo.AllDataWithCategories.set p.Category (bucket.set p.ID p)
        UserPostsData :=
          repo.UserPostsData.set p.Author.Username
            ((repo.UserPostsData p.Author.Username).getD [] ++ [p]) } := by
  obtain ⟨ha, hbk, hl⟩ := hinv
  have hold : ∀ u posts q, repo.UserPostsData u = some posts → q ∈ posts → q.ID ≠ p.ID := by
    intro u posts q hu hq heq
    have := (hl u posts q hu hq).1
    rw [heq, hfresh] at this
    exact absurd this (by simp)
  have hnotin : p ∉ (repo.UserPostsData p.Author.Username).getD [] := by
    intro hin
    cases hk : repo.UserPostsData p.Author.Username with
    | none => rw [hk] at hin; simp at hin
    | some l =>
      rw [hk] at hin
      exact hold _ l p hk (by simpa using hin) rfl
  refine ⟨?_, ?_, ?_⟩
  · intro id q hq
    simp only [GoMap.set] at hq ⊢
    by_cases hid : id = p.ID
    · rw [if_pos hid] at hq
      have hqp : p = q := Option.some.inj hq
      subst hqp
      refine ⟨hid.symm, ⟨bucket.set p.ID p, by simp, by simp [GoMap.set, hid]⟩, ?_⟩
      refine ⟨(repo.UserPostsData p.Author.Username).getD [] ++ [p], by simp, ?_⟩
      rw [List.count_append, List.count_eq_zero_of_not_mem hnotin]
      simp
    · rw [if_neg hid] at hq
      obtain ⟨hqid, ⟨b1, hb1, hb1q⟩, ⟨l1, hl1, hcount⟩⟩ := ha id q hq
      have hqp : q ≠ p := fun h => hid (by rw [← hqid, h])
      refine ⟨hqid, ?_, ?_⟩
      · by_cases hc : q.Category = p.Category
        · rw [hc] at hb1
          have hbb : b1 = bucket := Option.some.inj (hb1.symm.trans hb)
          subst hbb
          exact ⟨b1.set p.ID p, by simp [hc], by simp [GoMap.set, hid, hb1q]⟩
        · exact ⟨b1, by simp [hc, hb1], hb1q⟩
      · by_cases hu : q.Author.Username = p.Author.Username
        · rw [hu] at hl1
          refine ⟨l1 ++ [p], by simp [hu, hl1], ?_⟩
          rw [List.count_append, hcount]
          simp [List.count_cons, hqp.symm]
        · exact ⟨l1, by simp [hu, hl1], hcount⟩
  · intro c b k q hcb hk
    simp only [GoMap.set] at hcb ⊢
    by_cases hc : c = p.Category
    · rw [if_pos hc] at hcb
      have hbb : bucket.set p.ID p = b := Option.some.inj hcb
      subst hbb
      simp only [GoMap.set] at hk
      by_cases hkid : k = p.ID
      · rw [if_pos hkid] at hk
        have hqp : p = q := Option.some.inj hk
        subst hqp
        exact ⟨by simp [hkid], hc⟩
      · rw [if_neg hkid] at hk
        obtain ⟨h1, h2⟩ := hbk p.Category bucket k q hb hk
        exact ⟨by simp [hkid, h1], hc ▸ h2⟩
    · rw [if_neg hc] at hcb
      obtain ⟨h1, h2⟩ := hbk c b k q hcb hk
      have hkid : k ≠ p.ID := by
        intro hkid
        rw [hkid, hfresh] at h1
        exact absurd h1 (by simp)
      exact ⟨by simp [hkid, h1], h2⟩
  · intro u posts q hu hq
    simp only [GoMap.set] at hu ⊢
    by_cases huu : u = p.Author.Username
    · rw [if_pos huu] at hu
      have hposts := Option.some.inj hu
      subst hposts
      rcases List.mem_append.mp hq with hq | hq
      · cases hk : repo.UserPostsData p.Author.Username with
        | none => rw [hk] at hq; simp at hq
        | some l =>
          rw [hk] at hq
          have hql : q ∈ l := by simpa using hq
          obtain ⟨h1, h2⟩ := hl _ l q hk hql
          have hne := hold _ l q hk hql
          exact ⟨by simp [hne, h1], huu.trans h2⟩
      · have hqp : q = p := List.mem_singleton.mp hq
        subst hqp
        exact ⟨by simp, huu⟩
    · rw [if_neg huu] at hu
      obtain ⟨h1, h2⟩ := hl u posts q hu hq
      have hne := hold u posts q hu hq
      exact ⟨by simp [hne, h1], h2⟩

/-- `DeletePost` by the author, for a post listed once under `userName`, when no
other post of that list has its ID: the state it returns. -/
theorem DeletePost_of_listed (repo : PostsMemoryRepository) (p : Post) (userName : String)
    (bucket : GoMap Post) (posts : List Post)
    (hb : repo.AllDataWithCategories p.Category = some bucket)
    (huser : repo.UserPostsData userName = some posts) (honce : posts.count p = 1)
    (hid : ∀ q ∈ posts, q.ID = p.ID → q = p) :
    ∃ l₁ l₂, posts = l₁ ++ p :: l₂ ∧ p ∉ l₁ ∧ p ∉ l₂
      ∧ DeletePost repo p userName p.Author.ID
          = .returned none
              { AllData := repo.AllData.delete p.ID
                AllDataWithCategories :=
                  repo.AllDataWithCategories.set p.Category (bucket.delete p.ID)
                UserPostsData := repo.UserPostsData.set userName (l₁ ++ l₂) } := by
  have hmem : p ∈ posts := List.count_pos_iff.mp (by omega)
  obtain ⟨l₁, a, l₂, hsplit, h₁, ha⟩ :=
    split_at_first (fun post => post.ID == p.ID) posts ⟨p, hmem, by simp⟩
  have hap : a = p := hid a (by simp [hsplit]) (by simpa using ha)
  subst hap
  have h₁ne : ∀ q ∈ l₁, q.ID ≠ a.ID := fun q hq => by simpa using h₁ q hq
  have hn₁ : a ∉ l₁ := fun hin => h₁ne a hin rfl
  have hn₂ : a ∉ l₂ := by
    intro hin
    have hc : 0 < List.count a l₂ := List.count_pos_iff.mpr hin
    rw [hsplit, List.count_append, List.count_cons_self] at honce
    omega
  refine ⟨l₁, l₂, hsplit, hn₁, hn₂, ?_⟩
  rw [DeletePost_at_split repo a userName l₁ l₂ (hsplit ▸ huser) h₁ne, hb]

theorem IndexesAgree_delete (repo : PostsMemoryRepository) (p : Post) (bucket : GoMap Post)
    (l₁ l₂ : List Post) (hinv : IndexesAgree repo) (hstored : repo.AllData p.ID = some p)
    (hb : repo.AllDataWithCategories p.Category = some bucket)
    (hposts : repo.UserPostsData p.Author.Username = some (l₁ ++ p :: l₂))
    (hn₁ : p ∉ l₁) (hn₂ : p ∉ l₂) :
    IndexesAgree
      { AllData := repo.AllData.delete p.ID
        AllDataWithCategories := repo.AllDataWithCategories.set p.Category (bucket.delete p.ID)
        UserPostsData := repo.UserPostsData.set p.Author.Username (l₁ ++ l₂) } := by
  obtain ⟨ha, hbk, hl⟩ := hinv
  have hsame : ∀ q, repo.AllData q.ID = some q → q.ID = p.ID → q = p := by
    intro q hq heq
    rw [heq, hstored] at hq
    exact (Option.some.inj hq).symm
  refine ⟨?_, ?_, ?_⟩
  · intro id q hq
    simp only [GoMap.delete] at hq
    by_cases hid : id = p.ID
    · rw [if_pos hid] at hq
      exact absurd hq (by simp)
    · rw [if_neg hid] at hq
      obtain ⟨hqid, ⟨b1, hb1, hb1q⟩, ⟨l, hlq, hcount⟩⟩ := ha id q hq
      have hqp : q ≠ p := fun h => hid (by rw [← hqid, h])
      refine ⟨hqid, ?_, ?_⟩
      · simp only [GoMap.set]
        by_cases hc : q.Category = p.Category
        · rw [hc] at hb1
          have hbb : b1 = bucket := Option.some.inj (hb1.symm.trans hb)
          subst hbb
          exact ⟨b1.delete p.ID, by simp [hc], by simp [GoMap.delete, hid, hb1q]⟩
        · exact ⟨b1, by simp [hc, hb1], hb1q⟩
      · simp only [GoMap.set]
        by_cases hu : q.Author.Username = p.Author.Username
        · rw [hu, hposts] at hlq
          have hll := Option.some.inj hlq
          subst hll
          refine ⟨l₁ ++ l₂, by simp [hu], ?_⟩
          rw [List.count_append, List.count_cons] at hcount
          rw [List.count_append]
          simp only [beq_iff_eq, hqp.symm, if_false] at hcount
          omega
        · exact ⟨l, by simp [hu, hlq], hcount⟩
  · intro c b k q hcb hk
    simp only [GoMap.set] at hcb
    simp only [GoMap.delete]
    by_cases hc : c = p.Category
    · rw [if_pos hc] at hcb
      have hbb := Option.some.inj hcb
      subst hbb
      simp only [GoMap.delete] at hk
      by_cases hkid : k = p.ID
      · rw [if_pos hkid] at hk
        exact absurd hk (by simp)
      · rw [if_neg hkid] at hk
        obtain ⟨h1, h2⟩ := hbk p.Category bucket k q hb hk
        exact ⟨by simp [hkid, h1], hc ▸ h2⟩
    · rw [if_neg hc] at hcb
      obtain ⟨h1, h2⟩ := hbk c b k q hcb hk
      have hkid : k ≠ p.ID := by
        intro hkid
        rw [hkid, hstored] at h1
        have hpq : p = q := Option.some.inj h1
        exact hc (by rw [h2, hpq])
      exact ⟨by simp [hkid, h1], h2⟩
  · intro u posts q hu hq
    simp only [GoMap.set] at hu
    simp only [GoMap.delete]
    by_cases huu : u = p.Author.Username
    · rw [if_pos huu] at hu
      have hpp := Option.some.inj hu
      subst hpp
      have hqin : q ∈ l₁ ++ p :: l₂ := by
        rcases List.mem_append.mp hq with h | h
        · exact List.mem_append_left _ h
        · exact List.mem_append_right _ (List.mem_cons_of_mem _ h)
      obtain ⟨h1, h2⟩ := hl _ _ q hposts hqin
      have hne : q.ID ≠ p.ID := by
        intro heq
        have hqp := hsame q h1 heq
        subst hqp
        rcases List.mem_append.mp hq with h | h
        · exact hn₁ h
        · exact hn₂ h
      exact ⟨by simp [hne, h1], huu.trans h2⟩
    · rw [if_neg huu] at hu
      obtain ⟨h1, h2⟩ := hl u posts q hu hq
      have hne : q.ID ≠ p.ID := by
        intro heq
        have hqp := hsame q h1 heq
        exact huu (by rw [h2, hqp])
      exact ⟨by simp [hne, h1], h2⟩

/-- What holds in every state reached by `create` and `delete`: the tables agree,
and the category keys are the six categories. -/
theorem CreateDeleteReachable_agree (repo : PostsMemoryRepository)
    (h : CreateDeleteReachable repo) :
    IndexesAgree repo
      ∧ ∀ c, (repo.AllDataWithCategories c).isSome = true ↔ c ∈ validCategories := by
  induction h with
  | start => exact ⟨IndexesAgree_new, NewPostMemoryRepository_categories⟩
  | create repo after p _ hcat hfresh hstore ih =>
    obtain ⟨hinv, hkeys⟩ := ih
    obtain ⟨bucket, hb⟩ := Option.isSome_iff_exists.mp ((hkeys p.Category).mpr hcat)
    rw [handlerStorePost_eq repo p.Author.Username p bucket hb] at hstore
    simp only [Outcome.returned.injEq, true_and] at hstore
    subst hstore
    refine ⟨IndexesAgree_create repo p bucket hinv hb hfresh, ?_⟩
    intro c
    rw [← hkeys c]
    simp only [GoMap.set]
    by_cases hc : c = p.Category
    · simp [hc, hb]
    · simp [hc]
  | delete repo after p _ hstored hdel ih =>
    obtain ⟨hinv, hkeys⟩ := ih
    obtain ⟨_, ⟨bucket, hb, _⟩, ⟨posts, hposts, honce⟩⟩ := hinv.1 p.ID p hstored
    have hid : ∀ q ∈ posts, q.ID = p.ID → q = p := by
      intro q hq heq
      have h1 := (hinv.2.2 _ posts q hposts hq).1
      rw [heq, hstored] at h1
      exact (Option.some.inj h1).symm
    obtain ⟨l₁, l₂, hsplit, hn₁, hn₂, hres⟩ :=
      DeletePost_of_listed repo p p.Author.Username bucket posts hb hposts honce hid
    rw [hres] at hdel
    simp only [Outcome.returned.injEq, true_and] at hdel
    subst hdel
    refine ⟨IndexesAgree_delete repo p bucket l₁ l₂ hinv hstored hb (hsplit ▸ hposts) hn₁ hn₂, ?_⟩
    intro c
    rw [← hkeys c]
    simp only [GoMap.set]
    by_cases hc : c = p.Category
    · simp [hc, hb]
    · simp [hc]

/-- C13. In every repository state reached from the empty repository by the
steps `create` and `delete`: a post of the global table is in the bucket of its own
category, under its ID, and in no other bucket or under another key; it occurs
exactly once in the list of its author's user name and in no other author list; a
post held by a bucket or by an author list is in the global table; and both steps
return without error. -/
theorem create_delete_keep_indexes_agreeing (repo : PostsMemoryRepository)
    (hreach : CreateDeleteReachable repo) :
    (∀ id p, repo.AllData id = some p →
        (∃ bucket, repo.AllDataWithCategories p.Category = some bucket ∧ bucket p.ID = some p)
          ∧ (∀ c bucket k, repo.AllDataWithCategories c = some bucket → bucket k = some p →
              c = p.Category ∧ k = p.ID)
          ∧ (∃ posts, repo.UserPostsData p.Author.Username = some posts ∧ posts.count p = 1)
          ∧ (∀ u posts, repo.UserPostsData u = some posts → p ∈ posts →
              u = p.Author.Username))
      ∧ (∀ c bucket k q, repo.AllDataWithCategories c = some bucket → bucket k = some q →
          repo.AllData q.ID = some q)
      ∧ (∀ u posts q, repo.UserPostsData u = some posts → q ∈ posts →
          repo.AllData q.ID = some q)
      ∧ (∀ p : Post, p.Category ∈ validCategories → repo.AllData p.ID = none →
          ∃ after, handlerStorePost repo p.Author.Username p = .returned none after)
      ∧ (∀ p : Post, repo.AllData p.ID = some p →
          ∃ after, DeletePost repo p p.Author.Username p.Author.ID = .returned none after) := by
  obtain ⟨⟨ha, hbk, hl⟩, hkeys⟩ := CreateDeleteReachable_agree repo hreach
  refine ⟨?_, ?_, ?_, ?_, ?_⟩
  · intro id p hp
    obtain ⟨hpid, ⟨bucket, hb, hbp⟩, hlist⟩ := ha id p hp
    refine ⟨⟨bucket, hb, by rw [hpid]; exact hbp⟩, ?_, hlist, ?_⟩
    · intro c b k hcb hk
      obtain ⟨h1, h2⟩ := hbk c b k p hcb hk
      exact ⟨h2, ((ha k p h1).1).symm⟩
    · intro u posts hu hin
      exact (hl u posts p hu hin).2
  · intro c b k q hcb hk
    have h1 := (hbk c b k q hcb hk).1
    rw [(ha k q h1).1]
    exact h1
  · intro u posts q hu hq
    exact (hl u posts q hu hq).1
  · intro p hcat _
    obtain ⟨bucket, hb⟩ := Option.isSome_iff_exists.mp ((hkeys p.Category).mpr hcat)
    exact ⟨_, handlerStorePost_eq repo p.Author.Username p bucket hb⟩
  · intro p hstored
    obtain ⟨_, ⟨bucket, hb, _⟩, ⟨posts, hposts, honce⟩⟩ := ha p.ID p hstored
    have hid : ∀ q ∈ posts, q.ID = p.ID → q = p := by
      intro q hq heq
      have h1 := (hl _ posts q hposts hq).1
      rw [heq, hstored] at h1
      exact (Option.some.inj h1).symm
    obtain ⟨l₁, l₂, _, _, _, hres⟩ :=
      DeletePost_of_listed repo p p.Author.Username bucket posts hb hposts honce hid
    exact ⟨_, hres⟩

/-- C13, witness: the repository after `otherPost` and `blankPost` have been
created; `blankPost` is in the `music` bucket and once in the list of `alice`. -/
theorem create_delete_keep_indexes_agreeing_witness :
    (∃ bucket, twoPostRepo.AllDataWithCategories blankPost.Category = some bucket
        ∧ bucket blankPost.ID = some blankPost)
      ∧ (∀ c bucket k, twoPostRepo.AllDataWithCategories c = some bucket →
          bucket k = some blankPost → c = blankPost.Category ∧ k = blankPost.ID)
      ∧ (∃ posts, twoPostRepo.UserPostsData blankPost.Author.Username = some posts
          ∧ posts.count blankPost = 1)
      ∧ (∀ u posts, twoPostRepo.UserPostsData u = some posts → blankPost ∈ posts →
          u = blankPost.Author.Username) :=
  (create_delete_keep_indexes_agreeing twoPostRepo
    (CreateDeleteReachable.create _ twoPostRepo blankPost
      (CreateDeleteReachable.create NewPostMemoryRepository _ otherPost
        CreateDeleteReachable.start (by decide) rfl rfl)
      (by decide) rfl rfl)).1 "p1" blankPost rfl

/-! ## The session manager -/

theorem requestWith_cookie (t : String) :
    (requestWith t).Cookie "session_id" = .ok ⟨"session_id", t⟩ := by
  simp [requestWith, Request.Cookie]

theorem Request.Cookie_cases (r : Request) (name : String) :
    r.Cookie name = .error .ErrNoCookie ∨ ∃ c, r.Cookie name = .ok c := by
  unfold Request.Cookie
  split_ifs
  · exact Or.inl rfl
  · cases List.find? (fun c => c.Name == name) r.Cookies with
    | none => exact Or.inl rfl
    | some c => exact Or.inr ⟨c, rfl⟩

/-- C15 (amended). For every session manager and every request: when the request
carries no `session_id` cookie, `CheckSession` fails with the error of `r.Cookie`,
`http.ErrNoCookie`; when the token it carries is not the identifier of a stored
session, `CheckSession` fails with `ErrSessionNotFound`; it succeeds exactly when
the token is the identifier of a stored session, and then returns the session
stored under it. -/
theorem CheckSession_results (manager : SessionManager) (r : Request) :
    (r.Cookie "session_id" = .error .ErrNoCookie →
        CheckSession manager r = .error .ErrNoCookie)
      ∧ (∀ c, r.Cookie "session_id" = .ok c → manager.data c.Value = none →
          CheckSession manager r = .error .ErrSessionNotFound)
      ∧ (∀ sess, CheckSession manager r = .ok sess
          ↔ ∃ c, r.Cookie "session_id" = .ok c ∧ manager.data c.Value = some sess) := by
  refine ⟨?_, ?_, ?_⟩
  · intro h
    simp only [CheckSession, h]
  · intro c hc hnone
    simp only [CheckSession, hc, hnone]
  · intro sess
    rcases Request.Cookie_cases r "session_id" with h | ⟨c, h⟩
    · simp [CheckSession, h]
    · cases hd : manager.data c.Value with
      | none => simp [CheckSession, h, hd]
      | some s0 => simp [CheckSession, h, hd]

/-- C15, witness: the stored session is found through its token, an unknown token
is not. -/
theorem CheckSession_results_witness :
    CheckSession oneSessionManager (requestWith "ffff") = .error .ErrSessionNotFound
      ∧ (CheckSession oneSessionManager (requestWith "00112233aabbccdd")
            = .ok ⟨"00112233aabbccdd", "alice", "a1"⟩
          ↔ ∃ c, (requestWith "00112233aabbccdd").Cookie "session_id" = .ok c
              ∧ oneSessionManager.data c.Value = some ⟨"00112233aabbccdd", "alice", "a1"⟩) :=
  ⟨(CheckSession_results oneSessionManager (requestWith "ffff")).2.1 ⟨"session_id", "ffff"⟩
      rfl rfl,
    (CheckSession_results oneSessionManager (requestWith "00112233aabbccdd")).2.2 _⟩

/-- C15, counterexample. For a request that carries no `session_id` cookie,
`CheckSession` returns `http.ErrNoCookie`, which is not `ErrSessionNotFound`. -/
theorem CheckSession_without_cookie_returns_ErrNoCookie :
    bareRequest.Cookie "session_id" = .error .ErrNoCookie
      ∧ CheckSession oneSessionManager bareRequest = .error .ErrNoCookie
      ∧ CheckSession oneSessionManager bareRequest ≠ .error .ErrSessionNotFound := by
  refine ⟨rfl, rfl, ?_⟩
  intro h
  have h2 : (Except.error SessionError.ErrNoCookie : Except SessionError Session)
      = Except.error SessionError.ErrSessionNotFound := h
  exact absurd (Except.error.inj h2) (by decide)

/-- C17 (amended). For every post `p`, every vote `v` and every `voteValue`:
`AddVote` returns; when the user of `v` already had a vote, the first vote of that
user gets the value `voteValue` in place, whatever the `Vote` field of `v` is; when
the user had none, `v` itself is appended, so the value recorded is `voteValue`
provided the `Vote` field of `v` equals `voteValue`. -/
theorem AddVote_records_value (p : Post) (v : Vote) (voteValue : Int)
    (hconsistent : (∃ w ∈ p.Votes, w.UserID = v.UserID) ∨ v.Vote = voteValue) :
    ∃ (p1 : Post) (l₁ l₂ : List Vote),
      AddVote p v voteValue = .returned none p1
        ∧ p1.Votes = l₁ ++ ⟨v.UserID, voteValue⟩ :: l₂
        ∧ (∀ w ∈ l₁, w.UserID ≠ v.UserID)
        ∧ ((∃ w ∈ p.Votes, w.UserID = v.UserID) →
            ∃ old, p.Votes = l₁ ++ ⟨v.UserID, old⟩ :: l₂)
        ∧ ((∀ w ∈ p.Votes, w.UserID ≠ v.UserID) → l₁ = p.Votes ∧ l₂ = []) := by
  rcases AddVote_cases p v voteValue with ⟨habs, hres⟩ | ⟨l₁, a, l₂, hsplit, h₁, ha, hres⟩
  · have hval : v.Vote = voteValue := by
      rcases hconsistent with ⟨w, hw, hwu⟩ | h
      · exact absurd hwu (habs w hw)
      · exact h
    have hv : v = ⟨v.UserID, voteValue⟩ := by
      cases v
      simp at hval
      simp [hval]
    refine ⟨_, p.Votes, [], hres, ?_, habs, ?_, fun _ => ⟨rfl, rfl⟩⟩
    · rw [issueScoreAndPercentage_votes]
      show p.Votes ++ [v] = p.Votes ++ [⟨v.UserID, voteValue⟩]
      rw [← hv]
    · rintro ⟨w, hw, hwu⟩
      exact absurd hwu (habs w hw)
  · have hrepl : ({ a with Vote := voteValue } : Vote) = ⟨v.UserID, voteValue⟩ := by
      cases a
      simp at ha
      simp [ha]
    refine ⟨_, l₁, l₂, hres, ?_, h₁, ?_, ?_⟩
    · rw [issueScoreAndPercentage_votes]
      show l₁ ++ ({ a with Vote := voteValue } : Vote) :: l₂ = _
      rw [hrepl]
    · intro _
      refine ⟨a.Vote, ?_⟩
      rw [hsplit]
      cases a
      simp at ha
      simp [ha]
    · intro habs
      exact absurd ha (habs a (by simp [hsplit]))

/-- C17, witness: user `b2`, who has a vote, passes a vote with `Vote = -1` and the
value `1`. -/
theorem AddVote_records_value_witness :
    ∃ (p1 : Post) (l₁ l₂ : List Vote),
      AddVote threeVotePost ⟨"b2", -1⟩ 1 = .returned none p1
        ∧ p1.Votes = l₁ ++ ⟨"b2", 1⟩ :: l₂
        ∧ (∀ w ∈ l₁, w.UserID ≠ "b2")
        ∧ ((∃ w ∈ threeVotePost.Votes, w.UserID = "b2") →
            ∃ old, threeVotePost.Votes = l₁ ++ ⟨"b2", old⟩ :: l₂)
        ∧ ((∀ w ∈ threeVotePost.Votes, w.UserID ≠ "b2") →
            l₁ = threeVotePost.Votes ∧ l₂ = []) :=
  AddVote_records_value threeVotePost ⟨"b2", -1⟩ 1 (Or.inl ⟨⟨"b2", 1⟩, by decide, rfl⟩)

/-- C17, counterexample. User `d4` has no vote on the post; `AddVote` with a vote
whose `Vote` field is `-1` and with `voteValue = 1` appends the vote as it is: the
value recorded for `d4` is `-1`, not `1`, and the score computed is `0`, not `2`. -/
theorem AddVote_appends_vote_with_its_own_value :
    (∀ w ∈ threeVotePost.Votes, w.UserID ≠ "d4")
      ∧ AddVote threeVotePost ⟨"d4", -1⟩ 1
          = .returned none
              { threeVotePost with
                Votes := [⟨"a1", 1⟩, ⟨"b2", 1⟩, ⟨"c3", -1⟩, ⟨"d4", -1⟩]
                Score := 0
                UpvotePercentage := 0 } := by
  constructor
  · decide
  · decide

/-! ## `AddUser`, as it behaves -/

theorem CheckUser_eq_none_iff (repo : UserMemoryRepository) (name password : String) :
    CheckUser repo name password = none
      ↔ ∃ old, repo.data name = some old ∧ old.Password = password := by
  unfold CheckUser
  cases h : repo.data name with
  | none => simp
  | some val =>
    by_cases hp : val.Password = password
    · simp [hp]
    · simp [hp]

/-- C18. For every user repository and every user `u`: `AddUser(u)` returns
`ErrUserAlready` if and only if a user is stored under `u.Name` with the password
`u.Password`, and then the repository is unchanged; in every other case, also when
`u.Name` is stored with another password, it returns no error, and afterwards
`GetUser(u.Name)` returns `u` (the record stored before is replaced) and
`CheckUser(u.Name, u.Password)` succeeds. -/
theorem AddUser_refuses_only_same_credentials (repo : UserMemoryRepository) (u : User) :
    ((AddUser repo u).1 = some .ErrUserAlready
        ↔ ∃ old, repo.data u.Name = some old ∧ old.Password = u.Password)
      ∧ ((AddUser repo u).1 = some .ErrUserAlready → (AddUser repo u).2 = repo)
      ∧ ((¬ ∃ old, repo.data u.Name = some old ∧ old.Password = u.Password) →
          (AddUser repo u).1 = none
            ∧ GetUser (AddUser repo u).2 u.Name = .ok u
            ∧ CheckUser (AddUser repo u).2 u.Name u.Password = none) := by
  have hiff := CheckUser_eq_none_iff repo u.Name u.Password
  by_cases hc : CheckUser repo u.Name u.Password = none
  · have hadd : AddUser repo u = (some .ErrUserAlready, repo) := by
      simp [AddUser, hc]
    refine ⟨?_, ?_, ?_⟩
    · rw [hadd]
      exact ⟨fun _ => hiff.mp hc, fun _ => rfl⟩
    · intro _
      rw [hadd]
    · intro hno
      exact absurd (hiff.mp hc) hno
  · have hne : (CheckUser repo u.Name u.Password != none) = true := by
      simpa using hc
    have hadd : AddUser repo u = (none, { data := repo.data.set u.Name u }) := by
      simp only [AddUser, hne, if_true]
    refine ⟨?_, ?_, ?_⟩
    · rw [hadd]
      constructor
      · intro h
        exact absurd h (by simp)
      · intro h
        exact absurd (hiff.mpr h) hc
    · intro h
      rw [hadd] at h
      exact absurd h (by simp)
    · intro _
      rw [hadd]
      refine ⟨rfl, ?_, ?_⟩
      · simp [GetUser, GoMap.set]
      · simp [CheckUser, GoMap.set]

/-! ## Runs of the post repository with its mutex -/

theorem runRepoCallWithMutex_returned (repo : PostsMemoryRepository) (muLocked : Bool)
    (c : RepoCall) (e : Option RepoError) (after : PostsMemoryRepository)
    (h : runRepoCallWithMutex repo muLocked c = .returned e after) :
    runRepoCall repo c = .returned e after := by
  unfold runRepoCallWithMutex at h
  split_ifs at h
  cases hrun : runRepoCall repo c with
  | returned e1 a1 =>
    rw [hrun] at h
    injection h with h1 h2
    rw [h1, h2]
  | runtimeFault =>
    rw [hrun] at h
    exact MutexOutcome.noConfusion h

theorem runRepoCallWithMutex_faulted (repo : PostsMemoryRepository) (muLocked : Bool)
    (c : RepoCall) (after : PostsMemoryRepository)
    (h : runRepoCallWithMutex repo muLocked c = .faulted after) :
    runRepoCall repo c = .runtimeFault ∧ after = faultState repo c := by
  unfold runRepoCallWithMutex at h
  split_ifs at h
  cases hrun : runRepoCall repo c with
  | returned e1 a1 =>
    rw [hrun] at h
    exact MutexOutcome.noConfusion h
  | runtimeFault =>
    rw [hrun] at h
    injection h with h1
    exact ⟨rfl, h1.symm⟩

/-- When the mutex is free, a call ends as it ends on the tables alone. -/
theorem runRepoCallWithMutex_free (repo : PostsMemoryRepository) (c : RepoCall)
    (e : Option RepoError) (after : PostsMemoryRepository)
    (h : runRepoCall repo c = .returned e after) :
    runRepoCallWithMutex repo false c = .returned e after := by
  simp [runRepoCallWithMutex, h]

theorem runRepoCall_fault_is_deletePost (repo : PostsMemoryRepository) (c : RepoCall)
    (h : runRepoCall repo c = .runtimeFault) :
    ∃ p userName userID, c = .deletePost p userName userID := by
  cases c with
  | addPost p =>
    simp only [runRepoCall, AddPost] at h
    cases hb : repo.AllDataWithCategories p.Category <;> rw [hb] at h <;>
      exact Outcome.noConfusion h
  | addUserPost userName p =>
    simp only [runRepoCall, AddUserPost] at h
    exact Outcome.noConfusion h
  | deletePost p userName userID => exact ⟨p, userName, userID, rfl⟩
  | changePosts g =>
    simp only [runRepoCall] at h
    exact Outcome.noConfusion h

theorem faultState_categories (repo : PostsMemoryRepository) (c : RepoCall) (k : String) :
    ((faultState repo c).AllDataWithCategories k).isSome
      = (repo.AllDataWithCategories k).isSome := by
  cases c with
  | deletePost p userName userID => exact DeletePostFaultState_categories repo p k
  | addPost p => rfl
  | addUserPost userName p => rfl
  | changePosts g => rfl

theorem faultState_authors (repo : PostsMemoryRepository) (c : RepoCall) :
    (faultState repo c).UserPostsData = repo.UserPostsData := by
  cases c <;> rfl

/-- Every state reached with the mutex taken into account is a state of
`ReachedBy`, which lets calls proceed after a fault. -/
theorem ReachedWithMutex_reachedBy (calls : List RepoCall) (repo : PostsMemoryRepository)
    (muLocked : Bool) (h : ReachedWithMutex calls repo muLocked) : ReachedBy calls repo := by
  induction h with
  | start => exact ReachedBy.start
  | call calls repo muLocked c e after _ hrun ih =>
    exact ReachedBy.call calls repo c e after ih
      (runRepoCallWithMutex_returned repo muLocked c e after hrun)
  | fault calls repo muLocked c after _ hrun ih =>
    obtain ⟨hfault, hafter⟩ := runRepoCallWithMutex_faulted repo muLocked c after hrun
    obtain ⟨p, userName, userID, hc⟩ := runRepoCall_fault_is_deletePost repo c hfault
    subst hc
    rw [hafter]
    exact ReachedBy.fault calls repo p userName userID ih hfault

/-- In every state reached, with the mutex free or locked, the keys of
`AllDataWithCategories` are the six categories. -/
theorem ReachedWithMutex_categories (calls : List RepoCall) (repo : PostsMemoryRepository)
    (muLocked : Bool) (h : ReachedWithMutex calls repo muLocked) (k : String) :
    (repo.AllDataWithCategories k).isSome = true ↔ k ∈ validCategories := by
  induction h with
  | start => exact NewPostMemoryRepository_categories k
  | call calls repo muLocked c e after _ hrun ih =>
    rw [runRepoCall_categories repo c e after
      (runRepoCallWithMutex_returned repo muLocked c e after hrun) k]
    exact ih
  | fault calls repo muLocked c after _ hrun ih =>
    rw [(runRepoCallWithMutex_faulted repo muLocked c after hrun).2,
      faultState_categories repo c k]
    exact ih

/-- In every state reached, with the mutex free or locked, the keys of
`UserPostsData` are the user names of the `AddUserPost` calls that have ended. -/
theorem ReachedWithMutex_authorKeys (calls : List RepoCall) (repo : PostsMemoryRepository)
    (muLocked : Bool) (h : ReachedWithMutex calls repo muLocked) (u : String) :
    (repo.UserPostsData u).isSome = true ↔ ∃ p, RepoCall.addUserPost u p ∈ calls := by
  induction h with
  | start => simp [NewPostMemoryRepository, GoMap.empty]
  | call calls repo muLocked c e after _ hrun ih =>
    rw [runRepoCall_authorKeys repo c e after
      (runRepoCallWithMutex_returned repo muLocked c e after hrun) u, ih]
    constructor
    · rintro (⟨p, hp⟩ | ⟨p, hp⟩)
      · exact ⟨p, List.mem_append_left _ hp⟩
      · exact ⟨p, by simp [hp]⟩
    · rintro ⟨p, hp⟩
      rcases List.mem_append.mp hp with hp | hp
      · exact Or.inl ⟨p, hp⟩
      · exact Or.inr ⟨p, (List.mem_singleton.mp hp).symm⟩
  | fault calls repo muLocked c after _ hrun ih =>
    obtain ⟨hfault, hafter⟩ := runRepoCallWithMutex_faulted repo muLocked c after hrun
    obtain ⟨q, userName, userID, hc⟩ := runRepoCall_fault_is_deletePost repo c hfault
    rw [hafter, faultState_authors, ih]
    constructor
    · rintro ⟨p, hp⟩
      exact ⟨p, List.mem_append_left _ hp⟩
    · rintro ⟨p, hp⟩
      rcases List.mem_append.mp hp with hp | hp
      · exact ⟨p, hp⟩
      · rw [hc] at hp
        exact absurd (List.mem_singleton.mp hp) (by simp)

/-- C11 (amended). In every repository state reached from `NewPostMemoryRepository`
by calls none of which has stopped with a run-time fault (so that the mutex is
free), and for every post `p` whose category is one of `music`, `funny`, `videos`,
`programming`, `news`, `fashion`: `AddPost(p)` returns no error, and afterwards
`GetPost(p.ID)` returns `p` and `GetPostsWithCategory(p.Category)` returns, without
error, a map that holds `p` under `p.ID`. -/
theorem AddPost_valid_category_retrievable (calls : List RepoCall)
    (repo : PostsMemoryRepository) (hreach : ReachedWithMutex calls repo false) (p : Post)
    (hcat : p.Category = "music" ∨ p.Category = "funny" ∨ p.Category = "videos"
      ∨ p.Category = "programming" ∨ p.Category = "news" ∨ p.Category = "fashion") :
    ∃ after, runRepoCallWithMutex repo false (.addPost p) = .returned none after
      ∧ AddPost repo p = .returned none after
      ∧ GetPost after p.ID = .ok p
      ∧ ∃ posts, GetPostsWithCategory after p.Category = .ok posts ∧ posts p.ID = some p := by
  have hmem : p.Category ∈ validCategories := by
    simpa [validCategories] using hcat
  have hsome := (ReachedWithMutex_categories calls repo false hreach p.Category).mpr hmem
  obtain ⟨bucket, hb⟩ := Option.isSome_iff_exists.mp hsome
  have hadd : AddPost repo p
      = .returned none
          { repo with
            AllData := repo.AllData.set p.ID p
            AllDataWithCategories :=
              repo.AllDataWithCategories.set p.Category (bucket.set p.ID p) } := by
    simp only [AddPost, hb]
  refine ⟨_, runRepoCallWithMutex_free repo (.addPost p) none _ hadd, hadd, ?_,
    bucket.set p.ID p, ?_, ?_⟩
  · simp [GetPost, GoMap.set]
  · simp [GetPostsWithCategory, GoMap.set]
  · simp [GoMap.set]

/-- C11, witness: `blankPost` (category `music`) added after `otherPost`. -/
theorem AddPost_valid_category_retrievable_witness :
    ∃ after,
      runRepoCallWithMutex
          ((AddPost NewPostMemoryRepository otherPost).stateOr NewPostMemoryRepository) false
          (.addPost blankPost) = .returned none after
        ∧ AddPost ((AddPost NewPostMemoryRepository otherPost).stateOr NewPostMemoryRepository)
            blankPost = .returned none after
        ∧ GetPost after blankPost.ID = .ok blankPost
        ∧ ∃ posts, GetPostsWithCategory after blankPost.Category = .ok posts
            ∧ posts blankPost.ID = some blankPost :=
  AddPost_valid_category_retrievable [.addPost otherPost]
    ((AddPost NewPostMemoryRepository otherPost).stateOr NewPostMemoryRepository)
    (ReachedWithMutex.call [] NewPostMemoryRepository false (.addPost otherPost) none _
      ReachedWithMutex.start rfl)
    blankPost (Or.inl rfl)

/-- C11, counterexample. On a new repository `DeletePost(blankPost, "alice", "a1")`
passes the author check, locks the mutex and stops with a run-time fault in its
`copy` statement, `alice` having no post list; the mutex stays locked. In the state
reached, `AddPost(blankPost)`, of category `music`, waits at `repo.mu.Lock()` and
does not return. -/
theorem AddPost_waits_after_faulted_DeletePost :
    DeletePost NewPostMemoryRepository blankPost "alice" "a1" = .runtimeFault
      ∧ ReachedWithMutex [.deletePost blankPost "alice" "a1"]
          (DeletePostFaultState NewPostMemoryRepository blankPost) true
      ∧ blankPost.Category = "music"
      ∧ runRepoCallWithMutex (DeletePostFaultState NewPostMemoryRepository blankPost) true
          (.addPost blankPost) = .blocked
      ∧ (∀ e after,
          runRepoCallWithMutex (DeletePostFaultState NewPostMemoryRepository blankPost) true
            (.addPost blankPost) ≠ .returned e after) := by
  have hblocked :
      runRepoCallWithMutex (DeletePostFaultState NewPostMemoryRepository blankPost) true
        (.addPost blankPost) = .blocked := rfl
  refine ⟨rfl, ?_, rfl, hblocked, ?_⟩
  · exact ReachedWithMutex.fault [] NewPostMemoryRepository false
      (.deletePost blankPost "alice" "a1") _ ReachedWithMutex.start rfl
  · intro e after h
    rw [hblocked] at h
    exact MutexOutcome.noConfusion h

/-- C14. In every repository state reached from `NewPostMemoryRepository`, the
mutex free or locked, `GetUserPosts(userName)` returns `ErrUserNotFound` if and only
if no call of `AddUserPost` for `userName` has ended; while the mutex is free every
call of `AddUserPost` ends (it returns), and when the author has no post listed,
adding one post with `AddUserPost` and removing it with `DeletePost` both return and
leave `GetUserPosts` returning the empty list and no error. -/
theorem GetUserPosts_not_found_iff_never_added (calls : List RepoCall)
    (repo : PostsMemoryRepository) (muLocked : Bool)
    (hreach : ReachedWithMutex calls repo muLocked) (userName : String) :
    (GetUserPosts repo userName = .error .ErrUserNotFound
        ↔ ¬ ∃ p, RepoCall.addUserPost userName p ∈ calls)
      ∧ (muLocked = false → ∀ p : Post,
          ∃ r1, runRepoCallWithMutex repo muLocked (.addUserPost userName p) = .returned none r1)
      ∧ (muLocked = false → ∀ p : Post,
          repo.UserPostsData userName = none ∨ repo.UserPostsData userName = some [] →
          ∃ r1 r2,
            runRepoCallWithMutex repo muLocked (.addUserPost userName p) = .returned none r1
              ∧ GetUserPosts r1 userName = .ok [p]
              ∧ runRepoCallWithMutex r1 muLocked (.deletePost p userName p.Author.ID)
                  = .returned none r2
              ∧ GetUserPosts r2 userName = .ok []) := by
  refine ⟨?_, ?_, ?_⟩
  · rw [← ReachedWithMutex_authorKeys calls repo muLocked hreach userName]
    unfold GetUserPosts
    cases repo.UserPostsData userName <;> simp
  · intro hfree p
    subst hfree
    exact ⟨_, runRepoCallWithMutex_free repo (.addUserPost userName p) none _ rfl⟩
  · intro hfree p hempty
    subst hfree
    have hadd : ∃ r1, AddUserPost repo userName p = .returned none r1
        ∧ r1.UserPostsData userName = some ([] ++ p :: []) := by
      refine ⟨_, rfl, ?_⟩
      rcases hempty with hk | hk <;> simp [hk, GoMap.set]
    obtain ⟨r1, hr1, hlist⟩ := hadd
    have hdel := DeletePost_at_split r1 p userName [] [] hlist (by simp)
    refine ⟨r1, _, runRepoCallWithMutex_free repo (.addUserPost userName p) none r1 hr1, ?_,
      runRepoCallWithMutex_free r1 (.deletePost p userName p.Author.ID) none _ hdel, ?_⟩
    · simp [GetUserPosts, hlist]
    · simp [GetUserPosts, GoMap.set]

/-- C14, witness: after the handler has stored two posts of `alice`, `alice` is
known and `bob` is not. -/
theorem GetUserPosts_not_found_iff_never_added_witness :
    (GetUserPosts twoPostRepo "bob" = .error .ErrUserNotFound
        ↔ ¬ ∃ p, RepoCall.addUserPost "bob" p
            ∈ [RepoCall.addPost otherPost, .addUserPost "alice" otherPost, .addPost blankPost,
                .addUserPost "alice" blankPost])
      ∧ (GetUserPosts twoPostRepo "alice" = .error .ErrUserNotFound
        ↔ ¬ ∃ p, RepoCall.addUserPost "alice" p
            ∈ [RepoCall.addPost otherPost, .addUserPost "alice" otherPost, .addPost blankPost,
                .addUserPost "alice" blankPost]) :=
  have hreach : ReachedWithMutex
      [.addPost otherPost, .addUserPost "alice" otherPost, .addPost blankPost,
        .addUserPost "alice" blankPost] twoPostRepo false :=
    ReachedWithMutex.call _ _ false (.addUserPost "alice" blankPost) none _
      (ReachedWithMutex.call _ _ false (.addPost blankPost) none _
        (ReachedWithMutex.call _ _ false (.addUserPost "alice" otherPost) none _
          (ReachedWithMutex.call [] NewPostMemoryRepository false (.addPost otherPost) none _
            ReachedWithMutex.start rfl)
          rfl)
        rfl)
      rfl
  ⟨(GetUserPosts_not_found_iff_never_added _ twoPostRepo false hreach "bob").1,
    (GetUserPosts_not_found_iff_never_added _ twoPostRepo false hreach "alice").1⟩

end RedditClone
